import Mathlib

/-!
Verification of the bip39-rs library against its specification.

The Rust sources are shallowly embedded:
* machine integers (`u8`, `u16`, `u32`) become `Nat` with explicit `% 2^w`
  where overflow can occur;
* Rust strings become `List Char`; `str::split(" ")` becomes `splitOnChar`,
  `join(" ")` becomes `List.intercalate [' ']`;
* fallible operations return `Except`/`Option`; a Rust panic (`unwrap`,
  out-of-bounds index, overflowing shift) is modelled by `Option.none`;
* external crates (`ring`'s SHA-256 and PBKDF2, the embedded wordlist text
  asset, the OS RNG) are not part of the repository sources, so they enter as
  explicit parameters of the embedded functions, constrained only by the
  properties the specification gives them.
-/

set_option maxHeartbeats 3000000

/-! ### Generic MSB-first bit machinery (proof infrastructure) -/

/-- Value of a bit list read most-significant-bit first. -/
def bitsToNat (l : List Bool) : Nat :=
  l.foldl (fun a b => 2 * a + (if b then 1 else 0)) 0

/-- The `k` low bits of `n`, most significant first. -/
def natBits (k n : Nat) : List Bool :=
  (List.range k).map (fun i => n.testBit (k - 1 - i))

/-- Big-endian value of a byte list. -/
def beVal (l : List Nat) : Nat :=
  l.foldl (fun a b => 256 * a + b) 0

theorem bitsToNat_aux (l : List Bool) (a : Nat) :
    l.foldl (fun a b => 2 * a + (if b then 1 else 0)) a
      = a * 2 ^ l.length + bitsToNat l := by
  induction l generalizing a with
  | nil => simp [bitsToNat]
  | cons b t ih =>
    simp only [List.foldl_cons, bitsToNat, List.length_cons]
    rw [ih, ih (2 * 0 + _)]
    ring

theorem bitsToNat_append (l₁ l₂ : List Bool) :
    bitsToNat (l₁ ++ l₂) = bitsToNat l₁ * 2 ^ l₂.length + bitsToNat l₂ := by
  simp only [bitsToNat, List.foldl_append]
  rw [bitsToNat_aux]
  rfl

theorem bitsToNat_concat (l : List Bool) (b : Bool) :
    bitsToNat (l ++ [b]) = 2 * bitsToNat l + (if b then 1 else 0) := by
  rw [bitsToNat_append]
  simp [bitsToNat]
  ring

theorem bitsToNat_lt (l : List Bool) : bitsToNat l < 2 ^ l.length := by
  induction l using List.reverseRecOn with
  | nil => simp [bitsToNat]
  | append_singleton t b ih =>
    rw [bitsToNat_concat]
    simp only [List.length_append, List.length_cons, List.length_nil]
    rw [pow_succ]
    cases b <;> simp <;> omega

theorem natBits_length (k n : Nat) : (natBits k n).length = k := by
  simp [natBits]

theorem natBits_succ (k n : Nat) :
    natBits (k + 1) n = natBits k (n / 2) ++ [n.testBit 0] := by
  simp only [natBits, List.range_succ, List.map_append, List.map_cons, List.map_nil]
  congr 1
  · apply List.map_congr_left
    intro i hi
    rw [List.mem_range] at hi
    rw [Nat.testBit_div_two]
    congr 1
    omega
  · simp

theorem mod_pow_succ_two (n k : Nat) :
    n % 2 ^ (k + 1) = 2 * (n / 2 % 2 ^ k) + n % 2 := by
  have h2k : 0 < 2 ^ k := pow_pos (by norm_num) k
  have hlt : 2 * (n / 2 % 2 ^ k) + n % 2 < 2 ^ (k + 1) := by
    have h1 := Nat.mod_lt (n / 2) h2k
    have h2 := Nat.mod_lt n (show 0 < 2 by norm_num)
    rw [pow_succ]
    omega
  have hdecomp : n = 2 ^ (k + 1) * (n / 2 / 2 ^ k) + (2 * (n / 2 % 2 ^ k) + n % 2) := by
    calc n = 2 * (n / 2) + n % 2 := (Nat.div_add_mod n 2).symm
      _ = 2 * (2 ^ k * (n / 2 / 2 ^ k) + n / 2 % 2 ^ k) + n % 2 := by
          rw [Nat.div_add_mod (n / 2) (2 ^ k)]
      _ = 2 ^ (k + 1) * (n / 2 / 2 ^ k) + (2 * (n / 2 % 2 ^ k) + n % 2) := by
          rw [pow_succ]
          ring
  conv_lhs => rw [hdecomp]
  rw [Nat.mul_add_mod, Nat.mod_eq_of_lt hlt]

theorem bitsToNat_natBits (k n : Nat) : bitsToNat (natBits k n) = n % 2 ^ k := by
  induction k generalizing n with
  | zero => simp [natBits, bitsToNat, Nat.mod_one]
  | succ k ih =>
    rw [natBits_succ, bitsToNat_concat, ih]
    rw [mod_pow_succ_two]
    rcases Nat.mod_two_eq_zero_or_one n with h | h <;>
      simp [Nat.testBit_zero, Nat.testBit, Nat.one_and_eq_mod_two, h]

theorem natBits_bitsToNat (l : List Bool) : natBits l.length (bitsToNat l) = l := by
  induction l using List.reverseRecOn with
  | nil => simp [natBits]
  | append_singleton t b ih =>
    have hlen : (t ++ [b]).length = t.length + 1 := by simp
    rw [hlen, natBits_succ, bitsToNat_concat]
    have hdiv : (2 * bitsToNat t + (if b then 1 else 0)) / 2 = bitsToNat t := by
      cases b <;> simp <;> omega
    have hbit : (2 * bitsToNat t + (if b then 1 else 0)).testBit 0 = b := by
      simp only [Nat.testBit_zero]
      cases b <;> simp <;> omega
    rw [hdiv, hbit, ih]

theorem natBits_mod (k n : Nat) : natBits k (n % 2 ^ k) = natBits k n := by
  simp only [natBits]
  apply List.map_congr_left
  intro i hi
  rw [List.mem_range] at hi
  rw [Nat.testBit_mod_two_pow]
  have : k - 1 - i < k := by omega
  simp [this]

theorem beVal_aux (l : List Nat) (a : Nat) :
    l.foldl (fun a b => 256 * a + b) a = a * 256 ^ l.length + beVal l := by
  induction l generalizing a with
  | nil => simp [beVal]
  | cons b t ih =>
    simp only [List.foldl_cons, beVal, List.length_cons]
    rw [ih, ih (256 * 0 + _)]
    ring

theorem beVal_cons (b : Nat) (l : List Nat) :
    beVal (b :: l) = b * 256 ^ l.length + beVal l := by
  have h : beVal (b :: l) = List.foldl (fun a b => 256 * a + b) b l := by
    simp [beVal]
  rw [h, beVal_aux]

theorem beVal_concat (l : List Nat) (b : Nat) :
    beVal (l ++ [b]) = 256 * beVal l + b := by
  simp only [beVal, List.foldl_append, List.foldl_cons, List.foldl_nil]

theorem beVal_lt (l : List Nat) (h : ∀ b ∈ l, b < 256) : beVal l < 256 ^ l.length := by
  induction l with
  | nil => simp [beVal]
  | cons b t ih =>
    rw [beVal_cons]
    have hb : b < 256 := h b (by simp)
    have ht : beVal t < 256 ^ t.length := ih (fun x hx => h x (by simp [hx]))
    simp only [List.length_cons, pow_succ]
    calc b * 256 ^ t.length + beVal t
        < b * 256 ^ t.length + 256 ^ t.length := by omega
      _ = (b + 1) * 256 ^ t.length := by ring
      _ ≤ 256 * 256 ^ t.length := by
          apply Nat.mul_le_mul_right
          omega
      _ = 256 ^ t.length * 256 := by ring

/-! ### Disjoint `lor` is addition -/

theorem testBit_mul_pow_add (a b k i : Nat) (hb : b < 2 ^ k) :
    (2 ^ k * a + b).testBit i
      = (if i < k then b.testBit i else a.testBit (i - k)) := by
  rcases Nat.lt_or_ge i k with hik | hik
  · simp only [hik, if_true]
    have h2i : 0 < 2 ^ i := pow_pos (by norm_num) i
    have hrw : (2 ^ k * a + b) / 2 ^ i = b / 2 ^ i + 2 * (2 ^ (k - i - 1) * a) := by
      have hsplit : 2 ^ k * a = 2 * (2 ^ (k - i - 1) * a) * 2 ^ i := by
        have hk : k = i + (k - i - 1) + 1 := by omega
        calc 2 ^ k * a = 2 ^ (i + (k - i - 1) + 1) * a := by rw [← hk]
          _ = 2 * (2 ^ (k - i - 1) * a) * 2 ^ i := by
              rw [pow_add, pow_succ]
              ring
      rw [Nat.add_comm, hsplit, Nat.add_mul_div_right _ _ h2i]
    rw [Nat.testBit_to_div_mod, Nat.testBit_to_div_mod, hrw,
      Nat.add_mul_mod_self_left]
  · simp only [Nat.not_lt.mpr hik, if_false]
    have h2k : 0 < 2 ^ k := pow_pos (by norm_num) k
    have hrw : (2 ^ k * a + b) / 2 ^ i = a / 2 ^ (i - k) := by
      have hsplit : (2 : Nat) ^ i = 2 ^ k * 2 ^ (i - k) := by
        rw [← pow_add]
        congr 1
        omega
      calc (2 ^ k * a + b) / 2 ^ i
          = (b + a * 2 ^ k) / 2 ^ k / 2 ^ (i - k) := by
            rw [hsplit, ← Nat.div_div_eq_div_mul, Nat.add_comm, Nat.mul_comm]
        _ = (b / 2 ^ k + a) / 2 ^ (i - k) := by
            rw [Nat.add_mul_div_right _ _ h2k]
        _ = a / 2 ^ (i - k) := by
            rw [Nat.div_eq_of_lt hb]
            simp
    rw [Nat.testBit_to_div_mod, Nat.testBit_to_div_mod, hrw]

theorem lor_mul_pow_add (a b k : Nat) (hb : b < 2 ^ k) :
    (2 ^ k * a) ||| b = 2 ^ k * a + b := by
  apply Nat.eq_of_testBit_eq
  intro i
  rw [Nat.testBit_lor, testBit_mul_pow_add a b k i hb]
  rcases Nat.lt_or_ge i k with hik | hik
  · have ha : (2 ^ k * a).testBit i = false := by
      have := testBit_mul_pow_add a 0 k i (pow_pos (by norm_num) k)
      simpa [hik] using this
    simp [ha, hik]
  · have hbf : b.testBit i = false :=
      Nat.testBit_lt_two_pow (lt_of_lt_of_le hb (Nat.pow_le_pow_right (by norm_num) hik))
    have ha : (2 ^ k * a).testBit i = a.testBit (i - k) := by
      have := testBit_mul_pow_add a 0 k i (pow_pos (by norm_num) k)
      simpa [Nat.not_lt.mpr hik] using this
    simp [ha, hbf, Nat.not_lt.mpr hik]

/-! ### Embedding of `src/util.rs` -/

/-- Width constant of the `Bits11` marker type in `util.rs` (`Bits11::BITS = 11`).
All uses of the generic `BitWriter<B>`/`BitIter<I, B>` in the crate instantiate
`B = Bits11`, so the embedding fixes the width to 11. -/
def Bits11.BITS : Nat := 11

/-- State of `util::BitWriter<Bits11>`: `offset`, `remainder: u32` and the byte
buffer `inner`. -/
structure BitWriter where
  offset : Nat
  remainder : Nat
  inner : List Nat
deriving Repr, DecidableEq

/-- The writer produced by `BitWriter::with_capacity` (the capacity only
pre-allocates; the starting state is offset 0, remainder 0, empty buffer). -/
def BitWriter.init : BitWriter := ⟨0, 0, []⟩

/-- The `while self.offset >= 8` loop in `BitWriter::push`: pop the top byte of
the remainder into the buffer until fewer than 8 pending bits remain. -/
def BitWriter.pushLoop (offset remainder : Nat) (inner : List Nat) :
    Nat × Nat × List Nat :=
  if 8 ≤ offset then
    BitWriter.pushLoop (offset - 8) ((remainder <<< 8) % 2 ^ 32)
      (inner ++ [remainder >>> 24])
  else (offset, remainder, inner)
termination_by offset
decreasing_by omega

/-- Embedding of `BitWriter::push` (with `B::BITS = 11`): `source` is a `u16`;
`self.remainder |= ((source as u32) << shift) >> self.offset` with
`shift = 32 - 11`, then `offset += 11` and the flush loop. -/
def BitWriter.push (w : BitWriter) (source : Nat) : BitWriter :=
  let shift := 32 - Bits11.BITS
  let remainder := w.remainder ||| ((((source % 2 ^ 16) <<< shift) % 2 ^ 32) >>> w.offset)
  let offset := w.offset + Bits11.BITS
  let r := BitWriter.pushLoop offset remainder w.inner
  ⟨r.1, r.2.1, r.2.2⟩

/-- Embedding of `BitWriter::len`. -/
def BitWriter.len (w : BitWriter) : Nat := w.inner.length * 8 + w.offset

/-- Embedding of `BitWriter::into_bytes`: flush the top byte of the remainder
if bits are pending. -/
def BitWriter.into_bytes (w : BitWriter) : List Nat :=
  if w.offset ≠ 0 then w.inner ++ [w.remainder >>> 24] else w.inner

/-- Push a whole sequence of `u16` values, starting from the fresh writer. -/
def BitWriter.pushAll (vs : List Nat) : BitWriter :=
  vs.foldl BitWriter.push BitWriter.init

/-- State of `util::BitIter<I, Bits11>`: the remaining byte source, the number
`read` of buffered bits, and the `u32` bit buffer. -/
structure BitIterSt where
  source : List Nat
  read : Nat
  buffer : Nat
deriving Repr, DecidableEq

/-- The `while self.read < B::BITS` loop of `BitIter::next`: pull bytes from
the source into the buffer.  A byte `b` is a `u8`, hence the `% 256`.  If the
source runs dry the Rust `?` operator returns `None` keeping the state; here
that exit is recognised by `read < 11` in the result. -/
def BitIterSt.fill : List Nat → Nat → Nat → List Nat × Nat × Nat
  | [], read, buffer => ([], read, buffer)
  | b :: rest, read, buffer =>
    if read < Bits11.BITS then
      BitIterSt.fill rest (read + 8) (buffer ||| (((b % 256) <<< (32 - (read + 8))) % 2 ^ 32))
    else (b :: rest, read, buffer)

/-- Embedding of `BitIter::next`: fill the buffer; if fewer than 11 bits could
be gathered, yield `none`; otherwise yield the top 11 bits (`buffer >> (32 - 11)`
cast to `u16`) and shift the buffer. -/
def BitIterSt.next (s : BitIterSt) : Option Nat × BitIterSt :=
  let f := BitIterSt.fill s.source s.read s.buffer
  let source := f.1
  let read := f.2.1
  let buffer := f.2.2
  if read < Bits11.BITS then (none, ⟨source, read, buffer⟩)
  else (some ((buffer >>> (32 - Bits11.BITS)) % 2 ^ 16),
    ⟨source, read - Bits11.BITS, (buffer <<< Bits11.BITS) % 2 ^ 32⟩)

/-- Number of unconsumed bits of a reader state (measure for termination). -/
def BitIterSt.bitsLeft (s : BitIterSt) : Nat := 8 * s.source.length + s.read

/-- Value of the unconsumed bits of a reader state, MSB first. -/
def BitIterSt.valLeft (s : BitIterSt) : Nat :=
  (s.buffer >>> (32 - s.read)) * 256 ^ s.source.length + beVal s.source

theorem BitIterSt.fill_bitsLeft (src : List Nat) (read buffer : Nat) :
    8 * (BitIterSt.fill src read buffer).1.length + (BitIterSt.fill src read buffer).2.1
      = 8 * src.length + read := by
  induction src generalizing read buffer with
  | nil => simp [BitIterSt.fill]
  | cons b rest ih =>
    rw [BitIterSt.fill]
    by_cases h : read < Bits11.BITS
    · simp only [h, if_true]
      rw [ih]
      simp only [List.length_cons]
      ring
    · simp [h]

theorem BitIterSt.next_some_bitsLeft (s : BitIterSt) (v : Nat) (s' : BitIterSt)
    (h : BitIterSt.next s = (some v, s')) :
    s'.bitsLeft + 11 = s.bitsLeft ∧ s'.bitsLeft < s.bitsLeft := by
  have hfill := BitIterSt.fill_bitsLeft s.source s.read s.buffer
  unfold BitIterSt.next at h
  simp only [Bits11.BITS] at h hfill
  by_cases hr : (BitIterSt.fill s.source s.read s.buffer).2.1 < 11
  · simp [hr] at h
  · simp only [hr, if_false, Prod.mk.injEq] at h
    rw [← h.2]
    simp only [BitIterSt.bitsLeft]
    omega

/-- Unfold the iterator completely: the list of all values `next` yields before
the first `none`. -/
def BitIterSt.readAll (s : BitIterSt) : List Nat :=
  match h : BitIterSt.next s with
  | (some v, s') => v :: BitIterSt.readAll s'
  | (none, _) => []
termination_by s.bitsLeft
decreasing_by exact (BitIterSt.next_some_bitsLeft s v s' h).2

/-- The state in which the iterator is left once it has returned `none`. -/
def BitIterSt.runAll (s : BitIterSt) : BitIterSt :=
  match h : BitIterSt.next s with
  | (some v, s') => BitIterSt.runAll s'
  | (none, s') => s'
termination_by s.bitsLeft
decreasing_by exact (BitIterSt.next_some_bitsLeft s v s' h).2

/-- Iterating the 11-bit reader over a byte slice, as `bytes.iter().bits(Bits11)`
does: start with an empty buffer. -/
def readBytes11 (bs : List Nat) : List Nat :=
  BitIterSt.readAll ⟨bs, 0, 0⟩

/-- Embedding of `util::checksum`: `source >> (8 - bits)` on `u8`.  The
`debug_assert!` excludes `bits > 8`; a shift amount of 8 (which happens at
`bits = 0`) overflows the `u8` shift, modelled by `none`. -/
def Util.checksum (source bits : Nat) : Option Nat :=
  if bits ≤ 8 then
    if 8 - bits < 8 then some ((source % 256) >>> (8 - bits)) else none
  else none

/-- Invariant of a reader state between two `next` calls. -/
def BitIterSt.Inv (s : BitIterSt) : Prop :=
  s.read < 11 ∧ s.buffer < 2 ^ 32 ∧ s.buffer % 2 ^ (32 - s.read) = 0 ∧
    ∀ b ∈ s.source, b < 256

theorem two_pow_split (n k : Nat) (h : k ≤ n) : (2 : Nat) ^ n = 2 ^ (n - k) * 2 ^ k := by
  rw [← pow_add]
  congr 1
  omega

theorem shiftRight_top (x n k : Nat) (hx : x < 2 ^ n) (hk : k ≤ n) :
    x >>> (n - k) < 2 ^ k := by
  rw [Nat.shiftRight_eq_div_pow]
  rw [two_pow_split n (n - k) (by omega)] at hx
  have h2 : 0 < 2 ^ (n - k) := pow_pos (by norm_num) _
  rw [Nat.div_lt_iff_lt_mul h2]
  calc x < 2 ^ (n - (n - k)) * 2 ^ (n - k) := hx
    _ = 2 ^ k * 2 ^ (n - k) := by
        congr 1
        · congr 1
          omega

/-- Splitting a disjoint sum modulo a larger power of two. -/
theorem mul_pow_add_mod (h b k j : Nat) (hb : b < 2 ^ k) :
    (2 ^ k * h + b) % 2 ^ (k + j) = 2 ^ k * (h % 2 ^ j) + b := by
  have hd := Nat.div_add_mod h (2 ^ j)
  have hlt : 2 ^ k * (h % 2 ^ j) + b < 2 ^ (k + j) := by
    have h1 : h % 2 ^ j < 2 ^ j := Nat.mod_lt _ (pow_pos (by norm_num) j)
    have h2 : 2 ^ k * (h % 2 ^ j) + b < 2 ^ k * (h % 2 ^ j + 1) := by
      rw [Nat.mul_add]
      omega
    calc 2 ^ k * (h % 2 ^ j) + b < 2 ^ k * (h % 2 ^ j + 1) := h2
      _ ≤ 2 ^ k * 2 ^ j := by
          apply Nat.mul_le_mul_left
          omega
      _ = 2 ^ (k + j) := by rw [← pow_add]
  have hdecomp : 2 ^ k * h + b
      = 2 ^ (k + j) * (h / 2 ^ j) + (2 ^ k * (h % 2 ^ j) + b) := by
    calc 2 ^ k * h + b = 2 ^ k * (2 ^ j * (h / 2 ^ j) + h % 2 ^ j) + b := by
          rw [Nat.div_add_mod]
      _ = 2 ^ (k + j) * (h / 2 ^ j) + (2 ^ k * (h % 2 ^ j) + b) := by
          rw [pow_add]
          ring
  rw [hdecomp, Nat.mul_add_mod, Nat.mod_eq_of_lt hlt]

/-- Dividing a disjoint sum by the power of two that separates it. -/
theorem mul_pow_add_div (h b k : Nat) (hb : b < 2 ^ k) :
    (2 ^ k * h + b) / 2 ^ k = h := by
  rw [Nat.mul_add_div (pow_pos (by norm_num) k), Nat.div_eq_of_lt hb]
  omega


theorem BitIterSt.fill_spec (src : List Nat) (read buffer : Nat)
    (hread : read ≤ 18) (hbuf : buffer < 2 ^ 32)
    (hlow : buffer % 2 ^ (32 - read) = 0) (hsrc : ∀ b ∈ src, b < 256) :
    ((BitIterSt.fill src read buffer).2.2 >>> (32 - (BitIterSt.fill src read buffer).2.1))
          * 256 ^ (BitIterSt.fill src read buffer).1.length
          + beVal (BitIterSt.fill src read buffer).1
        = (buffer >>> (32 - read)) * 256 ^ src.length + beVal src ∧
      (BitIterSt.fill src read buffer).2.2 < 2 ^ 32 ∧
      (BitIterSt.fill src read buffer).2.2
          % 2 ^ (32 - (BitIterSt.fill src read buffer).2.1) = 0 ∧
      (11 ≤ (BitIterSt.fill src read buffer).2.1 ∨
        (BitIterSt.fill src read buffer).1 = []) ∧
      (BitIterSt.fill src read buffer).2.1 ≤ 18 ∧
      (∀ b ∈ (BitIterSt.fill src read buffer).1, b < 256) := by
  induction src generalizing read buffer with
  | nil =>
    rw [BitIterSt.fill]
    exact ⟨rfl, hbuf, hlow, Or.inr rfl, hread, by simp⟩
  | cons b rest ih =>
    have hb : b < 256 := hsrc b (by simp)
    have hrest : ∀ x ∈ rest, x < 256 := fun x hx => hsrc x (by simp [hx])
    by_cases hr : read < 11
    · -- one more byte is pulled into the buffer
      obtain ⟨q, hq⟩ : 2 ^ (32 - read) ∣ buffer := Nat.dvd_of_mod_eq_zero hlow
      have hqlt : q < 2 ^ read := by
        by_contra hc
        rw [Nat.not_lt] at hc
        have : (2 : Nat) ^ 32 ≤ buffer := by
          calc (2 : Nat) ^ 32 = 2 ^ (32 - read) * 2 ^ read := two_pow_split 32 read (by omega)
            _ ≤ 2 ^ (32 - read) * q := Nat.mul_le_mul_left _ hc
            _ = buffer := hq.symm
        omega
      have hxval : ((b % 256) <<< (32 - (read + 8))) % 2 ^ 32 = b * 2 ^ (24 - read) := by
        have h32 : 32 - (read + 8) = 24 - read := by omega
        rw [h32, Nat.shiftLeft_eq, Nat.mod_eq_of_lt hb]
        apply Nat.mod_eq_of_lt
        calc b * 2 ^ (24 - read) < 256 * 2 ^ (24 - read) :=
              mul_lt_mul_of_pos_right hb (pow_pos (by norm_num) _)
          _ ≤ 256 * 2 ^ 24 := by
              apply Nat.mul_le_mul_left
              apply Nat.pow_le_pow_right (by norm_num)
              omega
          _ ≤ 2 ^ 32 := by norm_num
      have hxlt : b * 2 ^ (24 - read) < 2 ^ (32 - read) := by
        have hsp : (2 : Nat) ^ (32 - read) = 256 * 2 ^ (24 - read) := by
          have h256 : (256 : Nat) = 2 ^ 8 := by norm_num
          rw [h256, ← pow_add]
          congr 1
          omega
        rw [hsp]
        exact mul_lt_mul_of_pos_right hb (pow_pos (by norm_num) _)
      have hbeq : buffer ||| (((b % 256) <<< (32 - (read + 8))) % 2 ^ 32)
          = 2 ^ (32 - read) * q + b * 2 ^ (24 - read) := by
        rw [hxval, hq, lor_mul_pow_add _ _ _ hxlt]
      have hfact : 2 ^ (32 - read) * q + b * 2 ^ (24 - read)
          = 2 ^ (24 - read) * (2 ^ 8 * q + b) := by
        have hsp : (2 : Nat) ^ (32 - read) = 2 ^ (24 - read) * 2 ^ 8 := by
          rw [← pow_add]
          congr 1
          omega
        rw [hsp]
        ring
      have hbuf' : 2 ^ (32 - read) * q + b * 2 ^ (24 - read) < 2 ^ 32 := by
        calc 2 ^ (32 - read) * q + b * 2 ^ (24 - read)
            < 2 ^ (32 - read) * q + 2 ^ (32 - read) := by omega
          _ = 2 ^ (32 - read) * (q + 1) := by ring
          _ ≤ 2 ^ (32 - read) * 2 ^ read := Nat.mul_le_mul_left _ (by omega)
          _ = 2 ^ 32 := (two_pow_split 32 read (by omega)).symm
      have hlow' : (2 ^ (32 - read) * q + b * 2 ^ (24 - read)) % 2 ^ (32 - (read + 8)) = 0 := by
        have h32 : 32 - (read + 8) = 24 - read := by omega
        rw [h32, hfact]
        exact Nat.mul_mod_right _ _
      rw [BitIterSt.fill]
      simp only [Bits11.BITS, hr, if_true]
      rw [hbeq]
      have hih := ih (read + 8) (2 ^ (32 - read) * q + b * 2 ^ (24 - read))
        (by omega) hbuf' hlow' hrest
      refine ⟨?_, hih.2.1, hih.2.2.1, hih.2.2.2.1, hih.2.2.2.2.1, hih.2.2.2.2.2⟩
      rw [hih.1]
      -- the buffer top after the pull is `2^8 * q + b`
      have htop' : (2 ^ (32 - read) * q + b * 2 ^ (24 - read)) >>> (32 - (read + 8))
          = 2 ^ 8 * q + b := by
        have h32 : 32 - (read + 8) = 24 - read := by omega
        rw [h32, Nat.shiftRight_eq_div_pow, hfact,
          Nat.mul_div_cancel_left _ (pow_pos (by norm_num) _)]
      have htop : buffer >>> (32 - read) = q := by
        rw [Nat.shiftRight_eq_div_pow, hq,
          Nat.mul_div_cancel_left _ (pow_pos (by norm_num) _)]
      rw [htop', htop, beVal_cons]
      simp only [List.length_cons, pow_succ]
      ring
    · -- the buffer already holds 11 bits: the loop does not run
      rw [BitIterSt.fill]
      simp only [Bits11.BITS, hr, if_false]
      exact ⟨trivial, hbuf, hlow, Or.inl (by omega), hread, hsrc⟩

theorem pow256_eq (l : Nat) : (256 : Nat) ^ l = 2 ^ (8 * l) := by
  have h : (256 : Nat) = 2 ^ 8 := by norm_num
  rw [h, ← pow_mul]

theorem BitIterSt.next_spec (s : BitIterSt) (hinv : s.Inv) (h11 : 11 ≤ s.bitsLeft) :
    ∃ v s', BitIterSt.next s = (some v, s') ∧
      v = s.valLeft >>> (s.bitsLeft - 11) ∧ v < 2 ^ 11 ∧
      s'.valLeft = s.valLeft % 2 ^ (s.bitsLeft - 11) ∧
      s'.bitsLeft = s.bitsLeft - 11 ∧ s'.Inv := by
  obtain ⟨hr11, hbuf, hlow, hsrc⟩ := hinv
  obtain ⟨hval, hbuf', hlow', hor, h18, hbytes'⟩ :=
    BitIterSt.fill_spec s.source s.read s.buffer (by omega) hbuf hlow hsrc
  have hbits := BitIterSt.fill_bitsLeft s.source s.read s.buffer
  have hbl : s.bitsLeft = 8 * s.source.length + s.read := rfl
  have hrd : 11 ≤ (BitIterSt.fill s.source s.read s.buffer).2.1 := by
    rcases hor with h | h
    · exact h
    · rw [h] at hbits
      simp only [List.length_nil, Nat.mul_zero, Nat.zero_add] at hbits
      omega
  -- abbreviations for the post-fill state
  obtain ⟨q, hq⟩ : 2 ^ (32 - (BitIterSt.fill s.source s.read s.buffer).2.1)
      ∣ (BitIterSt.fill s.source s.read s.buffer).2.2 := Nat.dvd_of_mod_eq_zero hlow'
  have hqtop : (BitIterSt.fill s.source s.read s.buffer).2.2
      >>> (32 - (BitIterSt.fill s.source s.read s.buffer).2.1) = q := by
    rw [Nat.shiftRight_eq_div_pow, hq,
      Nat.mul_div_cancel_left _ (pow_pos (by norm_num) _)]
  have hqlt : q < 2 ^ (BitIterSt.fill s.source s.read s.buffer).2.1 := by
    rw [← hqtop]
    exact shiftRight_top _ 32 _ hbuf' (by omega)
  unfold BitIterSt.next
  simp only [Bits11.BITS]
  rw [if_neg (by omega)]
  have h21 : (2 : Nat) ^ 21
      = 2 ^ (32 - (BitIterSt.fill s.source s.read s.buffer).2.1)
        * 2 ^ ((BitIterSt.fill s.source s.read s.buffer).2.1 - 11) := by
    rw [← pow_add]
    congr 1
    omega
  have hvtop : (BitIterSt.fill s.source s.read s.buffer).2.2 >>> (32 - 11)
      = q >>> ((BitIterSt.fill s.source s.read s.buffer).2.1 - 11) := by
    rw [Nat.shiftRight_eq_div_pow, Nat.shiftRight_eq_div_pow, hq]
    have h32 : 32 - 11 = 21 := by norm_num
    rw [h32, h21, ← Nat.div_div_eq_div_mul,
      Nat.mul_div_cancel_left _ (pow_pos (by norm_num) _)]
  have hvlt : q >>> ((BitIterSt.fill s.source s.read s.buffer).2.1 - 11) < 2 ^ 11 := by
    have := shiftRight_top q (BitIterSt.fill s.source s.read s.buffer).2.1 11 hqlt hrd
    exact this
  have hvmod : ((BitIterSt.fill s.source s.read s.buffer).2.2 >>> (32 - 11)) % 2 ^ 16
      = q >>> ((BitIterSt.fill s.source s.read s.buffer).2.1 - 11) := by
    rw [hvtop]
    exact Nat.mod_eq_of_lt (lt_trans hvlt (by norm_num))
  refine ⟨_, _, rfl, ?_, ?_, ?_, ?_, ?_⟩
  · -- the value is the top 11 of the remaining bits
    rw [hvmod]
    have hvalS : s.valLeft
        = 2 ^ (8 * (BitIterSt.fill s.source s.read s.buffer).1.length) * q
          + beVal (BitIterSt.fill s.source s.read s.buffer).1 := by
      unfold BitIterSt.valLeft
      rw [← hval, hqtop, pow256_eq, Nat.mul_comm]
    have hbev : beVal (BitIterSt.fill s.source s.read s.buffer).1
        < 2 ^ (8 * (BitIterSt.fill s.source s.read s.buffer).1.length) := by
      rw [← pow256_eq]
      exact beVal_lt _ hbytes'
    rw [hvalS, Nat.shiftRight_eq_div_pow, Nat.shiftRight_eq_div_pow]
    have hsplit : (2 : Nat) ^ (s.bitsLeft - 11)
        = 2 ^ (8 * (BitIterSt.fill s.source s.read s.buffer).1.length)
          * 2 ^ ((BitIterSt.fill s.source s.read s.buffer).2.1 - 11) := by
      rw [← pow_add]
      congr 1
      omega
    rw [hsplit, ← Nat.div_div_eq_div_mul, mul_pow_add_div _ _ _ hbev]
  · rw [hvmod]
    exact hvlt
  · -- the remaining value after the extraction
    have hbufn : ((BitIterSt.fill s.source s.read s.buffer).2.2 <<< 11) % 2 ^ 32
        = 2 ^ (32 - ((BitIterSt.fill s.source s.read s.buffer).2.1 - 11))
          * (q % 2 ^ ((BitIterSt.fill s.source s.read s.buffer).2.1 - 11)) := by
      rw [Nat.shiftLeft_eq, hq]
      have hee : 32 - (BitIterSt.fill s.source s.read s.buffer).2.1 + 11
          = 32 - ((BitIterSt.fill s.source s.read s.buffer).2.1 - 11) := by
        omega
      have he : 2 ^ (32 - (BitIterSt.fill s.source s.read s.buffer).2.1) * q * 2 ^ 11
          = 2 ^ (32 - ((BitIterSt.fill s.source s.read s.buffer).2.1 - 11)) * q := by
        calc 2 ^ (32 - (BitIterSt.fill s.source s.read s.buffer).2.1) * q * 2 ^ 11
            = (2 ^ (32 - (BitIterSt.fill s.source s.read s.buffer).2.1) * 2 ^ 11) * q := by
              ring
          _ = 2 ^ (32 - ((BitIterSt.fill s.source s.read s.buffer).2.1 - 11)) * q := by
              rw [← pow_add, hee]
      have hm : (2 : Nat) ^ 32
          = 2 ^ (32 - ((BitIterSt.fill s.source s.read s.buffer).2.1 - 11))
            * 2 ^ ((BitIterSt.fill s.source s.read s.buffer).2.1 - 11) := by
        rw [← pow_add]
        congr 1
        omega
      rw [he, hm, Nat.mul_mod_mul_left]
    show ((((BitIterSt.fill s.source s.read s.buffer).2.2 <<< 11) % 2 ^ 32)
        >>> (32 - ((BitIterSt.fill s.source s.read s.buffer).2.1 - 11)))
        * 256 ^ (BitIterSt.fill s.source s.read s.buffer).1.length
        + beVal (BitIterSt.fill s.source s.read s.buffer).1
      = s.valLeft % 2 ^ (s.bitsLeft - 11)
    have htopn : (((BitIterSt.fill s.source s.read s.buffer).2.2 <<< 11) % 2 ^ 32)
        >>> (32 - ((BitIterSt.fill s.source s.read s.buffer).2.1 - 11))
        = q % 2 ^ ((BitIterSt.fill s.source s.read s.buffer).2.1 - 11) := by
      rw [hbufn, Nat.shiftRight_eq_div_pow,
        Nat.mul_div_cancel_left _ (pow_pos (by norm_num) _)]
    have hvalS : s.valLeft
        = 2 ^ (8 * (BitIterSt.fill s.source s.read s.buffer).1.length) * q
          + beVal (BitIterSt.fill s.source s.read s.buffer).1 := by
      unfold BitIterSt.valLeft
      rw [← hval, hqtop, pow256_eq, Nat.mul_comm]
    have hbev : beVal (BitIterSt.fill s.source s.read s.buffer).1
        < 2 ^ (8 * (BitIterSt.fill s.source s.read s.buffer).1.length) := by
      rw [← pow256_eq]
      exact beVal_lt _ hbytes'
    have hsplit : s.bitsLeft - 11
        = 8 * (BitIterSt.fill s.source s.read s.buffer).1.length
          + ((BitIterSt.fill s.source s.read s.buffer).2.1 - 11) := by
      omega
    rw [htopn, hvalS, hsplit, mul_pow_add_mod _ _ _ _ hbev, pow256_eq, Nat.mul_comm]
  · show 8 * (BitIterSt.fill s.source s.read s.buffer).1.length
        + ((BitIterSt.fill s.source s.read s.buffer).2.1 - 11) = s.bitsLeft - 11
    omega
  · refine ⟨show (BitIterSt.fill s.source s.read s.buffer).2.1 - 11 < 11 by omega,
      Nat.mod_lt _ (pow_pos (by norm_num) _), ?_, hbytes'⟩
    show ((BitIterSt.fill s.source s.read s.buffer).2.2 <<< 11) % 2 ^ 32
        % 2 ^ (32 - ((BitIterSt.fill s.source s.read s.buffer).2.1 - 11)) = 0
    have hbufn : ((BitIterSt.fill s.source s.read s.buffer).2.2 <<< 11) % 2 ^ 32
        = 2 ^ (32 - ((BitIterSt.fill s.source s.read s.buffer).2.1 - 11))
          * (q % 2 ^ ((BitIterSt.fill s.source s.read s.buffer).2.1 - 11)) := by
      rw [Nat.shiftLeft_eq, hq]
      have hee : 32 - (BitIterSt.fill s.source s.read s.buffer).2.1 + 11
          = 32 - ((BitIterSt.fill s.source s.read s.buffer).2.1 - 11) := by
        omega
      have he : 2 ^ (32 - (BitIterSt.fill s.source s.read s.buffer).2.1) * q * 2 ^ 11
          = 2 ^ (32 - ((BitIterSt.fill s.source s.read s.buffer).2.1 - 11)) * q := by
        calc 2 ^ (32 - (BitIterSt.fill s.source s.read s.buffer).2.1) * q * 2 ^ 11
            = (2 ^ (32 - (BitIterSt.fill s.source s.read s.buffer).2.1) * 2 ^ 11) * q := by
              ring
          _ = 2 ^ (32 - ((BitIterSt.fill s.source s.read s.buffer).2.1 - 11)) * q := by
              rw [← pow_add, hee]
      have hm : (2 : Nat) ^ 32
          = 2 ^ (32 - ((BitIterSt.fill s.source s.read s.buffer).2.1 - 11))
            * 2 ^ ((BitIterSt.fill s.source s.read s.buffer).2.1 - 11) := by
        rw [← pow_add]
        congr 1
        omega
      rw [he, hm, Nat.mul_mod_mul_left]
    rw [hbufn]
    exact Nat.mul_mod_right _ _

theorem BitIterSt.fill_read_lt (src : List Nat) (read buffer : Nat)
    (h : (BitIterSt.fill src read buffer).2.1 < 11) :
    (BitIterSt.fill src read buffer).1 = [] := by
  induction src generalizing read buffer with
  | nil => rw [BitIterSt.fill]
  | cons b rest ih =>
    rw [BitIterSt.fill] at h ⊢
    simp only [Bits11.BITS] at h ⊢
    by_cases hr : read < 11
    · rw [if_pos hr] at h ⊢
      exact ih _ _ h
    · rw [if_neg hr] at h
      exact absurd h hr

theorem BitIterSt.next_none (s : BitIterSt) (h : s.bitsLeft < 11) :
    (BitIterSt.next s).1 = none := by
  have hbits := BitIterSt.fill_bitsLeft s.source s.read s.buffer
  have hbl : s.bitsLeft = 8 * s.source.length + s.read := rfl
  unfold BitIterSt.next
  simp only [Bits11.BITS]
  rw [if_pos (by omega)]

/-- Once `next` has answered `none`, it answers `none` forever, leaving the
state unchanged. -/
theorem BitIterSt.next_none_stable (s : BitIterSt)
    (h : (BitIterSt.next s).1 = none) :
    BitIterSt.next (BitIterSt.next s).2 = (none, (BitIterSt.next s).2) := by
  unfold BitIterSt.next at h ⊢
  simp only [Bits11.BITS] at h ⊢
  by_cases hr : (BitIterSt.fill s.source s.read s.buffer).2.1 < 11
  · have hnil := BitIterSt.fill_read_lt s.source s.read s.buffer hr
    simp only [hr, if_true] at h ⊢
    simp only [hnil]
    rw [BitIterSt.fill]
    simp only [hr, if_true]
  · simp [hr] at h

theorem BitIterSt.readAll_next_some (s : BitIterSt) (v : Nat) (s' : BitIterSt)
    (h : BitIterSt.next s = (some v, s')) :
    BitIterSt.readAll s = v :: BitIterSt.readAll s' := by
  rw [BitIterSt.readAll]
  split
  · rename_i v2 s2 h2
    rw [h] at h2
    cases h2
    rfl
  · rename_i h2
    rw [h] at h2
    cases h2

theorem BitIterSt.readAll_next_none (s : BitIterSt)
    (h : (BitIterSt.next s).1 = none) :
    BitIterSt.readAll s = [] := by
  rw [BitIterSt.readAll]
  split
  · rename_i v2 s2 h2
    rw [h2] at h
    cases h
  · rfl

/-- Abstract reading: repeatedly strip the top 11 bits of an `n`-bit value. -/
def readSpec (n x : Nat) : List Nat :=
  if 11 ≤ n then (x >>> (n - 11)) :: readSpec (n - 11) (x % 2 ^ (n - 11)) else []
termination_by n
decreasing_by omega

theorem readSpec_length (n : Nat) : ∀ x, (readSpec n x).length = n / 11 := by
  induction n using Nat.strong_induction_on with
  | _ n ih =>
    intro x
    rw [readSpec]
    by_cases h : 11 ≤ n
    · rw [if_pos h]
      simp only [List.length_cons]
      rw [ih (n - 11) (by omega)]
      rw [Nat.div_eq_sub_div (by norm_num) h]
    · rw [if_neg h]
      simp only [List.length_nil]
      rw [Nat.div_eq_of_lt (by omega)]

theorem BitIterSt.readAll_spec (n : Nat) : ∀ s : BitIterSt, s.bitsLeft = n → s.Inv →
    BitIterSt.readAll s = readSpec n s.valLeft := by
  induction n using Nat.strong_induction_on with
  | _ n ih =>
    intro s hn hinv
    by_cases h11 : 11 ≤ n
    · obtain ⟨v, s', hnext, hv, hvlt, hval', hbits', hinv'⟩ :=
        BitIterSt.next_spec s hinv (by omega)
      rw [BitIterSt.readAll_next_some s v s' hnext, readSpec, if_pos h11]
      rw [ih (n - 11) (by omega) s' (by omega) hinv']
      rw [hv, hval', hn]
    · rw [BitIterSt.readAll_next_none s (BitIterSt.next_none s (by omega)),
        readSpec, if_neg h11]

theorem BitIterSt.readAll_mem_lt (n : Nat) : ∀ s : BitIterSt, s.bitsLeft = n → s.Inv →
    ∀ v ∈ BitIterSt.readAll s, v < 2 ^ 11 := by
  induction n using Nat.strong_induction_on with
  | _ n ih =>
    intro s hn hinv v hv
    by_cases h11 : 11 ≤ n
    · obtain ⟨v0, s', hnext, hv0, hvlt, hval', hbits', hinv'⟩ :=
        BitIterSt.next_spec s hinv (by omega)
      rw [BitIterSt.readAll_next_some s v0 s' hnext] at hv
      rcases List.mem_cons.mp hv with h | h
      · rw [h]
        exact hvlt
      · exact ih (n - 11) (by omega) s' (by omega) hinv' v h
    · rw [BitIterSt.readAll_next_none s (BitIterSt.next_none s (by omega))] at hv
      cases hv

theorem readBytes11_length (bs : List Nat) (hbs : ∀ b ∈ bs, b < 256) :
    (readBytes11 bs).length = 8 * bs.length / 11 := by
  have hinv : BitIterSt.Inv ⟨bs, 0, 0⟩ := ⟨by norm_num, by positivity, by simp, hbs⟩
  have hbl : BitIterSt.bitsLeft ⟨bs, 0, 0⟩ = 8 * bs.length := by
    simp [BitIterSt.bitsLeft]
  unfold readBytes11
  rw [BitIterSt.readAll_spec (8 * bs.length) _ hbl hinv, readSpec_length]

/-- Invariant of a writer state between two `push` calls. -/
def BitWriter.Inv (w : BitWriter) : Prop :=
  w.offset < 8 ∧ w.remainder < 2 ^ 32 ∧ w.remainder % 2 ^ (32 - w.offset) = 0 ∧
    ∀ b ∈ w.inner, b < 256

/-- Number of bits pushed so far (`BitWriter::len`). -/
def BitWriter.bits (w : BitWriter) : Nat := 8 * w.inner.length + w.offset

/-- Value of all pushed bits, MSB first. -/
def BitWriter.val (w : BitWriter) : Nat :=
  beVal w.inner * 2 ^ w.offset + (w.remainder >>> (32 - w.offset))

theorem BitWriter.pushLoop_spec (o : Nat) : ∀ r inner, o ≤ 32 → r < 2 ^ 32 →
    r % 2 ^ (32 - o) = 0 → (∀ b ∈ inner, b < 256) →
    (BitWriter.pushLoop o r inner).1 = o % 8 ∧
    beVal (BitWriter.pushLoop o r inner).2.2 * 2 ^ (BitWriter.pushLoop o r inner).1
        + ((BitWriter.pushLoop o r inner).2.1
          >>> (32 - (BitWriter.pushLoop o r inner).1))
      = beVal inner * 2 ^ o + (r >>> (32 - o)) ∧
    8 * (BitWriter.pushLoop o r inner).2.2.length + (BitWriter.pushLoop o r inner).1
      = 8 * inner.length + o ∧
    (BitWriter.pushLoop o r inner).2.1 < 2 ^ 32 ∧
    (BitWriter.pushLoop o r inner).2.1
        % 2 ^ (32 - (BitWriter.pushLoop o r inner).1) = 0 ∧
    (∀ b ∈ (BitWriter.pushLoop o r inner).2.2, b < 256) := by
  induction o using Nat.strong_induction_on with
  | _ o ih =>
    intro r inner ho hr hlow hbytes
    by_cases h8 : 8 ≤ o
    · obtain ⟨q, hq⟩ : 2 ^ (32 - o) ∣ r := Nat.dvd_of_mod_eq_zero hlow
      have hqtop : r >>> (32 - o) = q := by
        rw [Nat.shiftRight_eq_div_pow, hq,
          Nat.mul_div_cancel_left _ (pow_pos (by norm_num) _)]
      have hqlt : q < 2 ^ o := by
        rw [← hqtop]
        exact shiftRight_top r 32 o hr ho
      have htop : r >>> 24 = q >>> (o - 8) := by
        rw [Nat.shiftRight_eq_div_pow, Nat.shiftRight_eq_div_pow, hq]
        have h24 : (2 : Nat) ^ 24 = 2 ^ (32 - o) * 2 ^ (o - 8) := by
          rw [← pow_add]
          congr 1
          omega
        rw [h24, ← Nat.div_div_eq_div_mul,
          Nat.mul_div_cancel_left _ (pow_pos (by norm_num) _)]
      have htoplt : r >>> 24 < 2 ^ 8 := shiftRight_top r 32 8 hr (by norm_num)
      have hrn : (r <<< 8) % 2 ^ 32 = 2 ^ (40 - o) * (q % 2 ^ (o - 8)) := by
        rw [Nat.shiftLeft_eq, hq]
        have hee : 32 - o + 8 = 40 - o := by omega
        have he : 2 ^ (32 - o) * q * 2 ^ 8 = 2 ^ (40 - o) * q := by
          calc 2 ^ (32 - o) * q * 2 ^ 8 = (2 ^ (32 - o) * 2 ^ 8) * q := by ring
            _ = 2 ^ (40 - o) * q := by rw [← pow_add, hee]
        have hm : (2 : Nat) ^ 32 = 2 ^ (40 - o) * 2 ^ (o - 8) := by
          rw [← pow_add]
          congr 1
          omega
        rw [he, hm, Nat.mul_mod_mul_left]
      rw [BitWriter.pushLoop, if_pos h8]
      have hrec := ih (o - 8) (by omega) ((r <<< 8) % 2 ^ 32) (inner ++ [r >>> 24])
        (by omega)
        (Nat.mod_lt _ (pow_pos (by norm_num) _))
        (by
          rw [hrn]
          have h40 : 32 - (o - 8) = 40 - o := by omega
          rw [h40]
          exact Nat.mul_mod_right _ _)
        (by
          intro b hb
          rcases List.mem_append.mp hb with h | h
          · exact hbytes b h
          · rw [List.mem_singleton.mp h]
            exact htoplt)
      refine ⟨?_, ?_, ?_, hrec.2.2.2.1, hrec.2.2.2.2.1, hrec.2.2.2.2.2⟩
      · rw [hrec.1]
        omega
      · rw [hrec.2.1, hqtop]
        have hrn' : ((r <<< 8) % 2 ^ 32) >>> (32 - (o - 8)) = q % 2 ^ (o - 8) := by
          rw [hrn, Nat.shiftRight_eq_div_pow]
          have h40 : 32 - (o - 8) = 40 - o := by omega
          rw [h40, Nat.mul_div_cancel_left _ (pow_pos (by norm_num) _)]
        rw [hrn', htop, beVal_concat]
        have hsp : (2 : Nat) ^ o = 2 ^ (o - 8) * 2 ^ 8 := by
          rw [← pow_add]
          congr 1
          omega
        have hqd := Nat.div_add_mod q (2 ^ (o - 8))
        rw [Nat.shiftRight_eq_div_pow]
        calc (256 * beVal inner + q / 2 ^ (o - 8)) * 2 ^ (o - 8) + q % 2 ^ (o - 8)
            = 256 * beVal inner * 2 ^ (o - 8)
              + (2 ^ (o - 8) * (q / 2 ^ (o - 8)) + q % 2 ^ (o - 8)) := by ring
          _ = beVal inner * 2 ^ o + q := by
              rw [hqd, hsp]
              ring
      · rw [hrec.2.2.1]
        simp only [List.length_append, List.length_cons, List.length_nil]
        omega
    · rw [BitWriter.pushLoop, if_neg h8]
      exact ⟨(Nat.mod_eq_of_lt (by omega)).symm, rfl, rfl, hr, hlow, hbytes⟩


theorem BitWriter.push_spec (w : BitWriter) (source : Nat) (hinv : w.Inv) :
    (w.push source).Inv ∧
    (w.push source).val = w.val * 2 ^ 11 + source % 2 ^ 11 ∧
    (w.push source).bits = w.bits + 11 := by
  obtain ⟨ho, hr, hlow, hbytes⟩ := hinv
  obtain ⟨q, hq⟩ : 2 ^ (32 - w.offset) ∣ w.remainder := Nat.dvd_of_mod_eq_zero hlow
  have hqtop : w.remainder >>> (32 - w.offset) = q := by
    rw [Nat.shiftRight_eq_div_pow, hq,
      Nat.mul_div_cancel_left _ (pow_pos (by norm_num) _)]
  have hqlt : q < 2 ^ w.offset := by
    rw [← hqtop]
    exact shiftRight_top _ 32 _ hr (by omega)
  -- the pushed bits, shifted to the top of a `u32` then down by the offset
  have h1 : ((source % 2 ^ 16) <<< 21) % 2 ^ 32 = 2 ^ 21 * (source % 2 ^ 11) := by
    rw [Nat.shiftLeft_eq]
    have h32 : (2 : Nat) ^ 32 = 2 ^ 21 * 2 ^ 11 := by norm_num
    rw [Nat.mul_comm _ ((2 : Nat) ^ 21), h32, Nat.mul_mod_mul_left]
    congr 1
    exact Nat.mod_mod_of_dvd source (by norm_num)
  have ho21 : w.offset + (21 - w.offset) = 21 := by omega
  have h21 : (2 : Nat) ^ 21 * (source % 2 ^ 11)
      = 2 ^ w.offset * (source % 2 ^ 11 * 2 ^ (21 - w.offset)) := by
    calc (2 : Nat) ^ 21 * (source % 2 ^ 11)
        = (2 ^ w.offset * 2 ^ (21 - w.offset)) * (source % 2 ^ 11) := by
          rw [← pow_add, ho21]
      _ = 2 ^ w.offset * (source % 2 ^ 11 * 2 ^ (21 - w.offset)) := by ring
  have hxval : (2 ^ 21 * (source % 2 ^ 11)) >>> w.offset
      = source % 2 ^ 11 * 2 ^ (21 - w.offset) := by
    rw [Nat.shiftRight_eq_div_pow, h21]
    exact Nat.mul_div_cancel_left _ (pow_pos (by norm_num) w.offset)
  have ho32 : 11 + (21 - w.offset) = 32 - w.offset := by omega
  have hxlt : source % 2 ^ 11 * 2 ^ (21 - w.offset) < 2 ^ (32 - w.offset) := by
    have hsp : (2 : Nat) ^ (32 - w.offset) = 2 ^ 11 * 2 ^ (21 - w.offset) := by
      rw [← pow_add, ho32]
    rw [hsp]
    exact mul_lt_mul_of_pos_right (Nat.mod_lt _ (by norm_num)) (pow_pos (by norm_num) _)
  have hlor : w.remainder ||| ((((source % 2 ^ 16) <<< 21) % 2 ^ 32) >>> w.offset)
      = 2 ^ (32 - w.offset) * q + source % 2 ^ 11 * 2 ^ (21 - w.offset) := by
    rw [h1, hxval, hq, lor_mul_pow_add _ _ _ hxlt]
  have ho32b : (21 - w.offset) + 11 = 32 - w.offset := by omega
  have hfact : 2 ^ (32 - w.offset) * q + source % 2 ^ 11 * 2 ^ (21 - w.offset)
      = 2 ^ (21 - w.offset) * (2 ^ 11 * q + source % 2 ^ 11) := by
    have hsp : (2 : Nat) ^ (32 - w.offset) = 2 ^ (21 - w.offset) * 2 ^ 11 := by
      rw [← pow_add, ho32b]
    rw [hsp]
    ring
  have hr0lt : 2 ^ (32 - w.offset) * q + source % 2 ^ 11 * 2 ^ (21 - w.offset) < 2 ^ 32 := by
    rw [hfact]
    have hmod := Nat.mod_lt source (show 0 < 2 ^ 11 by norm_num)
    have h2 : 2 ^ 11 * q + source % 2 ^ 11 < 2 ^ 11 * 2 ^ w.offset := by
      have h4 : 2 ^ 11 * (q + 1) ≤ 2 ^ 11 * 2 ^ w.offset :=
        Nat.mul_le_mul_left _ (by omega)
      rw [Nat.mul_add] at h4
      omega
    have ho32c : (21 - w.offset) + (11 + w.offset) = 32 := by omega
    calc 2 ^ (21 - w.offset) * (2 ^ 11 * q + source % 2 ^ 11)
        < 2 ^ (21 - w.offset) * (2 ^ 11 * 2 ^ w.offset) := by
          exact mul_lt_mul_of_pos_left h2 (pow_pos (by norm_num) _)
      _ = 2 ^ 32 := by
          rw [← pow_add, ← pow_add, ho32c]
  have hr0low : (2 ^ (32 - w.offset) * q + source % 2 ^ 11 * 2 ^ (21 - w.offset))
      % 2 ^ (21 - w.offset) = 0 := by
    rw [hfact]
    exact Nat.mul_mod_right _ _
  have hr0top : (2 ^ (32 - w.offset) * q + source % 2 ^ 11 * 2 ^ (21 - w.offset))
      >>> (21 - w.offset) = 2 ^ 11 * q + source % 2 ^ 11 := by
    rw [hfact, Nat.shiftRight_eq_div_pow,
      Nat.mul_div_cancel_left _ (pow_pos (by norm_num) _)]
  have h2132 : 21 - w.offset = 32 - (w.offset + 11) := by omega
  have hloop := BitWriter.pushLoop_spec (w.offset + 11)
    (w.remainder ||| ((((source % 2 ^ 16) <<< 21) % 2 ^ 32) >>> w.offset))
    w.inner
    (by omega)
    (by rw [hlor]; exact hr0lt)
    (by rw [hlor, ← h2132]; exact hr0low)
    hbytes
  have hpush : w.push source
      = ⟨(BitWriter.pushLoop (w.offset + 11)
            (w.remainder ||| ((((source % 2 ^ 16) <<< 21) % 2 ^ 32) >>> w.offset))
            w.inner).1,
          (BitWriter.pushLoop (w.offset + 11)
            (w.remainder ||| ((((source % 2 ^ 16) <<< 21) % 2 ^ 32) >>> w.offset))
            w.inner).2.1,
          (BitWriter.pushLoop (w.offset + 11)
            (w.remainder ||| ((((source % 2 ^ 16) <<< 21) % 2 ^ 32) >>> w.offset))
            w.inner).2.2⟩ := rfl
  rw [hpush]
  unfold BitWriter.Inv BitWriter.val BitWriter.bits
  simp only
  refine ⟨⟨?_, hloop.2.2.2.1, hloop.2.2.2.2.1, hloop.2.2.2.2.2⟩, ?_, ?_⟩
  · rw [hloop.1]
    exact Nat.mod_lt _ (by norm_num)
  · rw [hloop.2.1, ← h2132, hlor, hr0top, hqtop]
    ring
  · rw [hloop.2.2.1]
    omega

/-- Value of a sequence of 11-bit pushes, MSB first (each `u16` source value
contributes its low 11 bits). -/
def vsVal (vs : List Nat) : Nat :=
  vs.foldl (fun a v => a * 2 ^ 11 + v % 2 ^ 11) 0

theorem vsVal_aux (vs : List Nat) (a : Nat) :
    vs.foldl (fun a v => a * 2 ^ 11 + v % 2 ^ 11) a
      = a * 2 ^ (11 * vs.length) + vsVal vs := by
  induction vs generalizing a with
  | nil => simp [vsVal]
  | cons v t ih =>
    simp only [List.foldl_cons, vsVal, List.length_cons]
    rw [ih, ih (0 * 2 ^ 11 + _)]
    have he : 11 * (t.length + 1) = 11 + 11 * t.length := by omega
    rw [he, pow_add]
    ring

theorem vsVal_cons (v : Nat) (vs : List Nat) :
    vsVal (v :: vs) = v % 2 ^ 11 * 2 ^ (11 * vs.length) + vsVal vs := by
  have h : vsVal (v :: vs)
      = vs.foldl (fun a v => a * 2 ^ 11 + v % 2 ^ 11) (v % 2 ^ 11) := by
    simp [vsVal]
  rw [h, vsVal_aux]

theorem vsVal_lt (vs : List Nat) : vsVal vs < 2 ^ (11 * vs.length) := by
  induction vs with
  | nil => simp [vsVal]
  | cons v t ih =>
    rw [vsVal_cons]
    have hv : v % 2 ^ 11 < 2 ^ 11 := Nat.mod_lt _ (by norm_num)
    have he : 11 * (v :: t).length = 11 + 11 * t.length := by
      simp only [List.length_cons]
      omega
    rw [he, pow_add]
    calc v % 2 ^ 11 * 2 ^ (11 * t.length) + vsVal t
        < v % 2 ^ 11 * 2 ^ (11 * t.length) + 2 ^ (11 * t.length) := by omega
      _ = (v % 2 ^ 11 + 1) * 2 ^ (11 * t.length) := by ring
      _ ≤ 2 ^ 11 * 2 ^ (11 * t.length) := by
          apply Nat.mul_le_mul_right
          omega

theorem BitWriter.init_inv : BitWriter.init.Inv :=
  ⟨by decide, by decide, by decide, by simp [BitWriter.init]⟩

theorem BitWriter.pushAll_spec (vs : List Nat) :
    (BitWriter.pushAll vs).Inv ∧ (BitWriter.pushAll vs).val = vsVal vs ∧
      (BitWriter.pushAll vs).bits = 11 * vs.length := by
  have hgen : ∀ (l : List Nat) (w : BitWriter), w.Inv →
      (l.foldl BitWriter.push w).Inv ∧
      (l.foldl BitWriter.push w).val
        = l.foldl (fun a v => a * 2 ^ 11 + v % 2 ^ 11) w.val ∧
      (l.foldl BitWriter.push w).bits = w.bits + 11 * l.length := by
    intro l
    induction l with
    | nil => intro w hw; exact ⟨hw, rfl, by simp⟩
    | cons v t ih =>
      intro w hw
      obtain ⟨hinv', hval', hbits'⟩ := BitWriter.push_spec w v hw
      obtain ⟨ih1, ih2, ih3⟩ := ih (w.push v) hinv'
      refine ⟨ih1, ?_, ?_⟩
      · simp only [List.foldl_cons]
        rw [ih2, hval']
      · simp only [List.foldl_cons, List.length_cons]
        rw [ih3, hbits']
        omega
  have hinit_val : BitWriter.init.val = 0 := by decide
  have hinit_bits : BitWriter.init.bits = 0 := by decide
  obtain ⟨h1, h2, h3⟩ := hgen vs BitWriter.init BitWriter.init_inv
  refine ⟨h1, ?_, ?_⟩
  · rw [BitWriter.pushAll, h2, hinit_val]
    rfl
  · rw [BitWriter.pushAll, h3, hinit_bits]
    omega

theorem BitWriter.into_bytes_spec (w : BitWriter) (hinv : w.Inv) :
    beVal w.into_bytes = w.val * 2 ^ ((8 - w.bits % 8) % 8) ∧
    w.into_bytes.length = (w.bits + 7) / 8 ∧
    (∀ b ∈ w.into_bytes, b < 256) ∧
    (w.offset ≠ 0 →
      w.into_bytes = w.inner ++ [w.remainder >>> 24] ∧
      (w.remainder >>> 24) % 2 ^ (8 - w.offset) = 0) := by
  obtain ⟨ho, hr, hlow, hbytes⟩ := hinv
  have hbits : w.bits = 8 * w.inner.length + w.offset := rfl
  by_cases hz : w.offset = 0
  · have hr0 : w.remainder = 0 := by
      rw [hz] at hlow
      norm_num at hlow
      omega
    have hmod : w.bits % 8 = 0 := by omega
    unfold BitWriter.into_bytes
    rw [if_neg (by omega)]
    refine ⟨?_, by rw [hbits]; omega, hbytes, fun hc => absurd hz hc⟩
    rw [hmod]
    unfold BitWriter.val
    rw [hr0, hz]
    simp
  · obtain ⟨q, hq⟩ : 2 ^ (32 - w.offset) ∣ w.remainder := Nat.dvd_of_mod_eq_zero hlow
    have hqtop : w.remainder >>> (32 - w.offset) = q := by
      rw [Nat.shiftRight_eq_div_pow, hq,
        Nat.mul_div_cancel_left _ (pow_pos (by norm_num) _)]
    have hqlt : q < 2 ^ w.offset := by
      rw [← hqtop]
      exact shiftRight_top _ 32 _ hr (by omega)
    have h24 : 24 + (8 - w.offset) = 32 - w.offset := by omega
    have htop : w.remainder >>> 24 = q * 2 ^ (8 - w.offset) := by
      rw [Nat.shiftRight_eq_div_pow, hq]
      have hsp : (2 : Nat) ^ (32 - w.offset) = 2 ^ 24 * 2 ^ (8 - w.offset) := by
        rw [← pow_add, h24]
      calc 2 ^ (32 - w.offset) * q / 2 ^ 24
          = 2 ^ 24 * (2 ^ (8 - w.offset) * q) / 2 ^ 24 := by
            rw [hsp]
            ring_nf
        _ = 2 ^ (8 - w.offset) * q := by
            rw [Nat.mul_div_cancel_left _ (pow_pos (by norm_num) _)]
        _ = q * 2 ^ (8 - w.offset) := by ring
    have htoplt : w.remainder >>> 24 < 2 ^ 8 := shiftRight_top _ 32 8 hr (by norm_num)
    have hmod : w.bits % 8 = w.offset := by omega
    unfold BitWriter.into_bytes
    rw [if_pos hz]
    refine ⟨?_, ?_, ?_, fun hc => ⟨rfl, ?_⟩⟩
    · rw [beVal_concat, hmod]
      unfold BitWriter.val
      rw [hqtop, htop]
      have h8 : (256 : Nat) = 2 ^ w.offset * 2 ^ (8 - w.offset) := by
        rw [← pow_add]
        have he : w.offset + (8 - w.offset) = 8 := by omega
        rw [he]
        norm_num
      calc 256 * beVal w.inner + q * 2 ^ (8 - w.offset)
          = (2 ^ w.offset * 2 ^ (8 - w.offset)) * beVal w.inner
            + q * 2 ^ (8 - w.offset) := by rw [← h8]
        _ = (beVal w.inner * 2 ^ w.offset + q) * 2 ^ ((8 - w.offset) % 8) := by
            have hm : (8 - w.offset) % 8 = 8 - w.offset := by
              apply Nat.mod_eq_of_lt
              omega
            rw [hm]
            ring
    · simp only [List.length_append, List.length_cons, List.length_nil]
      omega
    · intro b hb
      rcases List.mem_append.mp hb with h | h
      · exact hbytes b h
      · rw [List.mem_singleton.mp h]
        exact htoplt
    · rw [htop]
      exact Nat.mul_mod_left _ _

theorem readSpec_top (vs : List Nat) : ∀ pad, (∀ v ∈ vs, v < 2 ^ 11) → pad < 11 →
    readSpec (11 * vs.length + pad) (vsVal vs * 2 ^ pad) = vs := by
  induction vs with
  | nil =>
    intro pad hvs hpad
    rw [readSpec, if_neg (by simp; omega)]
  | cons v t ih =>
    intro pad hvs hpad
    have hv : v < 2 ^ 11 := hvs v (by simp)
    have hrest : ∀ x ∈ t, x < 2 ^ 11 := fun x hx => hvs x (by simp [hx])
    have hW := vsVal_lt t
    have hval : vsVal (v :: t) * 2 ^ pad
        = 2 ^ (11 * t.length + pad) * v + vsVal t * 2 ^ pad := by
      rw [vsVal_cons, Nat.mod_eq_of_lt hv, pow_add]
      ring
    have hWlt : vsVal t * 2 ^ pad < 2 ^ (11 * t.length + pad) := by
      rw [pow_add]
      exact mul_lt_mul_of_pos_right hW (pow_pos (by norm_num) _)
    have hN : 11 * (v :: t).length + pad = (11 * t.length + pad) + 11 := by
      simp only [List.length_cons]
      omega
    rw [hN, readSpec, if_pos (by omega)]
    have hsub : 11 * t.length + pad + 11 - 11 = 11 * t.length + pad := by omega
    rw [hsub, hval, Nat.shiftRight_eq_div_pow, mul_pow_add_div _ _ _ hWlt,
      Nat.mul_add_mod, Nat.mod_eq_of_lt hWlt, ih pad hrest hpad]

/-- Claim C4: for every sequence of values each strictly below `2^11`, pushing
them in order into the 11-bit `BitWriter`, taking `into_bytes()`, and reading
the bytes back through the 11-bit `BitIter` yields exactly the original values
in order — the MSB-first byte/11-bit-group conversion is lossless. -/
theorem writer_reader_roundtrip (vs : List Nat) (h : ∀ v ∈ vs, v < 2048) :
    readBytes11 (BitWriter.pushAll vs).into_bytes = vs := by
  obtain ⟨hinv, hval, hbits⟩ := BitWriter.pushAll_spec vs
  obtain ⟨hbe, hlen, hbytes, _⟩ := BitWriter.into_bytes_spec _ hinv
  have hrinv : BitIterSt.Inv ⟨(BitWriter.pushAll vs).into_bytes, 0, 0⟩ :=
    ⟨by norm_num, by positivity, by simp, hbytes⟩
  have hbl : BitIterSt.bitsLeft ⟨(BitWriter.pushAll vs).into_bytes, 0, 0⟩
      = 8 * (BitWriter.pushAll vs).into_bytes.length := by
    simp [BitIterSt.bitsLeft]
  have hvl : BitIterSt.valLeft ⟨(BitWriter.pushAll vs).into_bytes, 0, 0⟩
      = beVal (BitWriter.pushAll vs).into_bytes := by
    simp [BitIterSt.valLeft]
  rw [readBytes11, BitIterSt.readAll_spec _ _ hbl hrinv, hvl]
  have hlen8 : 8 * (BitWriter.pushAll vs).into_bytes.length
      = 11 * vs.length + (8 - (11 * vs.length) % 8) % 8 := by
    rw [hlen, hbits]
    omega
  have hbe' : beVal (BitWriter.pushAll vs).into_bytes
      = vsVal vs * 2 ^ ((8 - (11 * vs.length) % 8) % 8) := by
    rw [hbe, hval, hbits]
  rw [hlen8, hbe']
  exact readSpec_top vs _ (fun v hv => lt_of_lt_of_le (h v hv) (by norm_num)) (by omega)

/-! ### Embedding of `src/mnemonic_type.rs` -/

/-- The five mnemonic profiles of `mnemonic_type.rs`. -/
inductive MnemonicType where
  | Type12Words
  | Type15Words
  | Type18Words
  | Type21Words
  | Type24Words
deriving Repr, DecidableEq

/-- Error kinds raised by `mnemonic_type.rs`.  Modelled from the spec: the
`error` module this enum lives in (`ErrorKind`) is not among the sources; the
spec's closed error taxonomy supplies the variants used here
(`InvalidWordLength` is the word-count error, `InvalidKeysize` the key-size
error). -/
inductive ErrorKind where
  | InvalidWordLength
  | InvalidKeysize
deriving Repr, DecidableEq

/-- Embedding of `MnemonicType::for_word_count`. -/
def MnemonicType.for_word_count (size : Nat) : Except ErrorKind MnemonicType :=
  match size with
  | 12 => .ok .Type12Words
  | 15 => .ok .Type15Words
  | 18 => .ok .Type18Words
  | 21 => .ok .Type21Words
  | 24 => .ok .Type24Words
  | _ => .error .InvalidWordLength

/-- Embedding of `MnemonicType::for_key_size`. -/
def MnemonicType.for_key_size (size : Nat) : Except ErrorKind MnemonicType :=
  match size with
  | 128 => .ok .Type12Words
  | 160 => .ok .Type15Words
  | 192 => .ok .Type18Words
  | 224 => .ok .Type21Words
  | 256 => .ok .Type24Words
  | _ => .error .InvalidKeysize

/-- Embedding of `MnemonicType::total_bits`. -/
def MnemonicType.total_bits : MnemonicType → Nat
  | .Type12Words => 132
  | .Type15Words => 165
  | .Type18Words => 198
  | .Type21Words => 231
  | .Type24Words => 264

/-- Embedding of `MnemonicType::entropy_bits`. -/
def MnemonicType.entropy_bits : MnemonicType → Nat
  | .Type12Words => 128
  | .Type15Words => 160
  | .Type18Words => 192
  | .Type21Words => 224
  | .Type24Words => 256

/-- Embedding of `MnemonicType::checksum_bits`. -/
def MnemonicType.checksum_bits : MnemonicType → Nat
  | .Type12Words => 4
  | .Type15Words => 5
  | .Type18Words => 6
  | .Type21Words => 7
  | .Type24Words => 8

/-- Embedding of `MnemonicType::word_count`. -/
def MnemonicType.word_count : MnemonicType → Nat
  | .Type12Words => 12
  | .Type15Words => 15
  | .Type18Words => 18
  | .Type21Words => 21
  | .Type24Words => 24

/-- Embedding of `impl fmt::Display for MnemonicType`:
`write!(f, "{} words ({}bits)", self.word_count(), self.entropy_bits())`. -/
def MnemonicType.display (t : MnemonicType) : String :=
  toString t.word_count ++ " words (" ++ toString t.entropy_bits ++ "bits)"

/-! ### Embedding of `src/keytype.rs` -/

/-- The five key sizes of `keytype.rs`. -/
inductive KeyType where
  | Key128
  | Key160
  | Key192
  | Key224
  | Key256
deriving Repr, DecidableEq

/-- Embedding of `KeyType::total_bits`. -/
def KeyType.total_bits : KeyType → Nat
  | .Key128 => 132
  | .Key160 => 165
  | .Key192 => 198
  | .Key224 => 231
  | .Key256 => 264

/-- Embedding of `KeyType::entropy_bits`. -/
def KeyType.entropy_bits : KeyType → Nat
  | .Key128 => 128
  | .Key160 => 160
  | .Key192 => 192
  | .Key224 => 224
  | .Key256 => 256

/-- Embedding of `KeyType::checksum_bits`. -/
def KeyType.checksum_bits : KeyType → Nat
  | .Key128 => 4
  | .Key160 => 5
  | .Key192 => 6
  | .Key224 => 7
  | .Key256 => 8

/-- Embedding of `KeyType::word_length`. -/
def KeyType.word_length : KeyType → Nat
  | .Key128 => 12
  | .Key160 => 15
  | .Key192 => 18
  | .Key224 => 21
  | .Key256 => 24

/-- Embedding of `KeyType::for_keysize`. -/
def KeyType.for_keysize (size : Nat) : Except ErrorKind KeyType :=
  match size with
  | 128 => .ok .Key128
  | 160 => .ok .Key160
  | 192 => .ok .Key192
  | 224 => .ok .Key224
  | 256 => .ok .Key256
  | _ => .error .InvalidKeysize

/-- Embedding of `KeyType::for_word_length`. -/
def KeyType.for_word_length (length : Nat) : Except ErrorKind KeyType :=
  match length with
  | 12 => .ok .Key128
  | 15 => .ok .Key160
  | 18 => .ok .Key192
  | 21 => .ok .Key224
  | 24 => .ok .Key256
  | _ => .error .InvalidWordLength

/-! ### Rust strings as `List Char` -/

/-- Embedding of Rust `str::split(sep)` for a one-character separator: split
into the (possibly empty) segments between occurrences of `sep`.  Like Rust's
`split`, the empty string yields one empty segment, and adjacent separators
yield empty segments. -/
def splitOnChar (sep : Char) : List Char → List (List Char)
  | [] => [[]]
  | c :: rest =>
    match splitOnChar sep rest with
    | [] => [[]]
    | g :: gs => if c = sep then [] :: g :: gs else (c :: g) :: gs

theorem splitOnChar_ne_nil (sep : Char) (s : List Char) : splitOnChar sep s ≠ [] := by
  cases s with
  | nil => simp [splitOnChar]
  | cons c rest =>
    rw [splitOnChar]
    cases h : splitOnChar sep rest with
    | nil => simp
    | cons g gs =>
      by_cases hc : c = sep <;> simp [hc]

/-- Embedding of `util::IterJoinExt::join` (used as `words.join(" ")`): the
first item, then glue-item pairs for the rest; the empty iterator yields the
empty string. -/
def joinSep (sep : Char) : List (List Char) → List Char
  | [] => []
  | w :: ws => w ++ ws.flatMap (fun x => sep :: x)

theorem joinSep_cons (sep : Char) (g : List Char) (gs : List (List Char)) :
    joinSep sep (g :: gs) = g ++ gs.flatMap (fun x => sep :: x) := rfl

/-- Splitting is a section of joining with the separator. -/
theorem joinSep_splitOnChar (sep : Char) (s : List Char) :
    joinSep sep (splitOnChar sep s) = s := by
  induction s with
  | nil => rfl
  | cons c rest ih =>
    rw [splitOnChar]
    cases h : splitOnChar sep rest with
    | nil => exact absurd h (splitOnChar_ne_nil sep rest)
    | cons g gs =>
      rw [h] at ih
      rw [joinSep_cons] at ih
      by_cases hc : c = sep
      · simp only [hc, if_true]
        rw [joinSep_cons]
        simp only [List.nil_append, List.flatMap_cons]
        rw [List.cons_append, ih]
      · simp only [hc, if_false]
        rw [joinSep_cons]
        rw [List.cons_append, ih]

theorem splitOnChar_no_sep (sep : Char) (w : List Char) (h : sep ∉ w) :
    splitOnChar sep w = [w] := by
  induction w with
  | nil => rfl
  | cons c rest ih =>
    have hc : c ≠ sep := fun hc => h (by simp [hc])
    have hrest : sep ∉ rest := fun hr => h (by simp [hr])
    rw [splitOnChar, ih hrest]
    simp [fun hcc => hc hcc]

theorem splitOnChar_word_append (sep : Char) (w t : List Char) (h : sep ∉ w) :
    splitOnChar sep (w ++ sep :: t) = w :: splitOnChar sep t := by
  induction w with
  | nil =>
    simp only [List.nil_append]
    rw [splitOnChar]
    cases hs : splitOnChar sep t with
    | nil => exact absurd hs (splitOnChar_ne_nil sep t)
    | cons g gs => simp
  | cons c rest ih =>
    have hc : c ≠ sep := fun hc => h (by simp [hc])
    have hrest : sep ∉ rest := fun hr => h (by simp [hr])
    simp only [List.cons_append]
    rw [splitOnChar, ih hrest]
    simp [fun hcc => hc hcc]

theorem splitOnChar_joinSep (sep : Char) (ws : List (List Char)) (hne : ws ≠ [])
    (h : ∀ w ∈ ws, sep ∉ w) : splitOnChar sep (joinSep sep ws) = ws := by
  induction ws with
  | nil => exact absurd rfl hne
  | cons w rest ih =>
    cases rest with
    | nil =>
      rw [joinSep_cons]
      simp only [List.flatMap_nil, List.append_nil]
      exact splitOnChar_no_sep sep w (h w (by simp))
    | cons w2 rest2 =>
      have hjoin : joinSep sep (w :: w2 :: rest2)
          = w ++ sep :: joinSep sep (w2 :: rest2) := by
        rw [joinSep_cons, joinSep_cons]
        simp
      rw [hjoin, splitOnChar_word_append sep w _ (h w (by simp)),
        ih (by simp) (fun x hx => h x (by simp [hx]))]

theorem splitOnChar_mem_not_sep (sep : Char) (s : List Char) :
    ∀ g ∈ splitOnChar sep s, sep ∉ g := by
  induction s with
  | nil =>
    intro g hg
    rw [splitOnChar, List.mem_singleton] at hg
    simp [hg]
  | cons c rest ih =>
    intro g hg
    rw [splitOnChar] at hg
    cases hsp : splitOnChar sep rest with
    | nil => exact absurd hsp (splitOnChar_ne_nil sep rest)
    | cons g0 gs =>
      rw [hsp] at hg ih
      by_cases hc : c = sep
      · simp only [hc, if_true, reduceIte] at hg
        rcases List.mem_cons.mp hg with h | h
        · simp [h]
        · exact ih g h
      · simp only [hc, if_false, reduceIte] at hg
        rcases List.mem_cons.mp hg with h | h
        · rw [h]
          intro hmem
          rcases List.mem_cons.mp hmem with h2 | h2
          · exact hc h2.symm
          · exact ih g0 (by simp) h2
        · exact ih g (by simp [h])

/-- A doubled separator somewhere in the string. -/
def hasDoubleSep (sep : Char) : List Char → Bool
  | a :: b :: rest => (a = sep ∧ b = sep : Bool) || hasDoubleSep sep (b :: rest)
  | _ => false

theorem hasDoubleSep_append (sep : Char) (w l : List Char) (h : sep ∉ w) :
    hasDoubleSep sep (w ++ l) = hasDoubleSep sep l := by
  induction w with
  | nil => rfl
  | cons c rest ih =>
    have hc : c ≠ sep := fun hc => h (by simp [hc])
    have hrest : sep ∉ rest := fun hr => h (by simp [hr])
    have hih := ih hrest
    cases rest with
    | nil =>
      cases l with
      | nil => rfl
      | cons a t =>
        simp only [List.nil_append, List.cons_append]
        rw [hasDoubleSep]
        simp [hc]
    | cons c2 rest2 =>
      simp only [List.cons_append] at hih ⊢
      rw [hasDoubleSep]
      simp [hc, hih]

theorem joinSep_cons_cons (sep : Char) (g g2 : List Char) (rest : List (List Char)) :
    joinSep sep (g :: g2 :: rest) = g ++ sep :: joinSep sep (g2 :: rest) := by
  rw [joinSep_cons, joinSep_cons]
  simp

theorem hasDoubleSep_not_mem (sep : Char) (l : List Char) (h : sep ∉ l) :
    hasDoubleSep sep l = false := by
  induction l with
  | nil => rfl
  | cons c t ih =>
    have hc : c ≠ sep := fun hcc => h (by simp [hcc])
    have ht : sep ∉ t := fun hr => h (by simp [hr])
    cases t with
    | nil => rfl
    | cons c2 t2 =>
      rw [hasDoubleSep]
      simp [hc, ih ht]

/-- Joining nonempty separator-free groups produces a string with no leading
separator, no trailing separator and no doubled separator. -/
theorem joinSep_clean (sep : Char) (gs : List (List Char))
    (h : ∀ g ∈ gs, g ≠ [] ∧ sep ∉ g) :
    (joinSep sep gs).head? ≠ some sep ∧
    (joinSep sep gs).getLast? ≠ some sep ∧
    hasDoubleSep sep (joinSep sep gs) = false := by
  induction gs with
  | nil => exact ⟨by simp [joinSep], by simp [joinSep], rfl⟩
  | cons g rest ih =>
    obtain ⟨hgne, hgsep⟩ := h g (by simp)
    have hrest : ∀ x ∈ rest, x ≠ [] ∧ sep ∉ x := fun x hx => h x (by simp [hx])
    cases rest with
    | nil =>
      rw [joinSep_cons]
      simp only [List.flatMap_nil, List.append_nil]
      refine ⟨?_, ?_, ?_⟩
      · cases g with
        | nil => exact absurd rfl hgne
        | cons c t =>
          simp only [List.head?_cons]
          intro hcon
          apply hgsep
          rw [Option.some_inj.mp hcon]
          simp
      · cases hg : g.getLast? with
        | none => simp
        | some x =>
          have hx : x ∈ g := by
            obtain ⟨hne, hxe⟩ := List.mem_getLast?_eq_getLast (show x ∈ g.getLast? by rw [hg]; rfl)
            rw [hxe]
            exact List.getLast_mem hne
          intro hcon
          have hxs : x = sep := Option.some_inj.mp hcon
          rw [hxs] at hx
          exact hgsep hx
      · exact hasDoubleSep_not_mem sep g hgsep
    | cons g2 rest2 =>
      obtain ⟨ih1, ih2, ih3⟩ := ih hrest
      obtain ⟨hg2ne, _⟩ := hrest g2 (by simp)
      have hJne : joinSep sep (g2 :: rest2) ≠ [] := by
        rw [joinSep_cons]
        cases g2 with
        | nil => exact absurd rfl hg2ne
        | cons x xs => simp
      rw [joinSep_cons_cons]
      refine ⟨?_, ?_, ?_⟩
      · cases g with
        | nil => exact absurd rfl hgne
        | cons c t =>
          simp only [List.cons_append, List.head?_cons]
          intro hcon
          apply hgsep
          rw [Option.some_inj.mp hcon]
          simp
      · rw [List.getLast?_append_cons]
        cases hJ : joinSep sep (g2 :: rest2) with
        | nil => exact absurd hJ hJne
        | cons j js =>
          rw [List.getLast?_cons_cons, ← hJ]
          exact ih2
      · rw [hasDoubleSep_append sep g _ hgsep]
        cases hJ : joinSep sep (g2 :: rest2) with
        | nil => exact absurd hJ hJne
        | cons j js =>
          rw [hasDoubleSep]
          have hjne : j ≠ sep := by
            intro hj
            apply ih1
            rw [hJ, hj]
            rfl
          rw [← hJ]
          simp [hjne, ih3]

/-! ### UTF-8 encoding of `List Char` (Rust `str::as_bytes`) -/

/-- UTF-8 encoding of one scalar value. -/
def utf8Char (c : Char) : List Nat :=
  let n := c.toNat
  if n < 128 then [n]
  else if n < 2048 then [192 ||| (n >>> 6), 128 ||| (n &&& 63)]
  else if n < 65536 then
    [224 ||| (n >>> 12), 128 ||| ((n >>> 6) &&& 63), 128 ||| (n &&& 63)]
  else
    [240 ||| (n >>> 18), 128 ||| ((n >>> 12) &&& 63),
      128 ||| ((n >>> 6) &&& 63), 128 ||| (n &&& 63)]

/-- UTF-8 bytes of a string (`str::as_bytes`). -/
def utf8Encode (s : List Char) : List Nat := s.flatMap utf8Char

/-! ### Embedding of `src/language.rs` (the parts the claims need) -/

/-- The new-style `WordList` of `language.rs`: an ordered list of words. -/
structure WordList where
  inner : List (List Char)

/-- Embedding of `WordList::get_word`: `self.inner[bits.bits() as usize]`.
The `Bits11` index wrapper comes from a version of `util.rs` that is not in
the sources; its payload is modelled as the raw `Nat` index, and the
out-of-bounds indexing panic is modelled by `none`. -/
def WordList.get_word (wl : WordList) (bits : Nat) : Option (List Char) :=
  wl.inner.get? bits

/-! ### Embedding of `src/error.rs`, `src/crypto.rs` and `src/bip39.rs` -/

/-- Embedding of `Bip39Error` (the `EntropyUnavailable(std::io::Error)`
payload is dropped: no claim concerns it). -/
inductive Bip39Error where
  | InvalidChecksum
  | InvalidWord
  | InvalidKeysize
  | InvalidWordLength
  | EntropyUnavailable
  | LanguageUnavailable
deriving Repr, DecidableEq

/-- Embedding of the old-style `Language` enum of `bip39.rs` (English only);
named `Bip39.Language` because plain `Language` collides with Mathlib. -/
inductive Bip39.Language where
  | English
deriving Repr, DecidableEq

/-- Constant `PBKDF2_ROUNDS` of `crypto.rs`. -/
def PBKDF2_ROUNDS : Nat := 2048

/-- Constant `PBKDF2_BYTES` of `crypto.rs`. -/
def PBKDF2_BYTES : Nat := 64

/-- Embedding of `crypto::pbkdf2`.  The external `ring::pbkdf2::derive` with
PRF HMAC-SHA-512 is the abstract parameter `derive`, taking the iteration
count, the salt bytes, the secret bytes and the requested output length (the
size of the `seed` buffer handed to `ring`).  The function wires in
`PBKDF2_ROUNDS`, `salt.as_bytes()`, the `input` secret and the 64-byte
output buffer exactly as `crypto.rs` does. -/
def pbkdf2 (derive : Nat → List Nat → List Nat → Nat → List Nat)
    (input : List Nat) (salt : List Char) : List Nat :=
  derive PBKDF2_ROUNDS (utf8Encode salt) input PBKDF2_BYTES

/-- The old-style `Bip39` struct. -/
structure Bip39 where
  mnemonic : List Char
  seed : List Nat
  lang : Bip39.Language

/-- Embedding of `KeyType::for_mnemonic`: split on a single space and match
the token count. -/
def KeyType.for_mnemonic (m : List Char) : Except Bip39Error KeyType :=
  match (splitOnChar ' ' m).length with
  | 12 => .ok .Key128
  | 15 => .ok .Key160
  | 18 => .ok .Key192
  | 21 => .ok .Key224
  | 24 => .ok .Key256
  | _ => .error .InvalidWordLength

/-- Embedding of `MnemonicType::for_phrase`: split on a single space and match
the token count. -/
def MnemonicType.for_phrase (m : List Char) : Except ErrorKind MnemonicType :=
  match (splitOnChar ' ' m).length with
  | 12 => .ok .Type12Words
  | 15 => .ok .Type15Words
  | 18 => .ok .Type18Words
  | 21 => .ok .Type21Words
  | 24 => .ok .Type24Words
  | _ => .error .InvalidWordLength

/-- Embedding of `Bip39::bit_from_u16_as_u11`. -/
def Bip39.bit_from_u16_as_u11 (input pos : Nat) : Bool :=
  if pos < 11 then (input % 2 ^ 16) &&& (1 <<< (10 - pos)) ≠ 0 else false

/-- The 11 bits pushed for one word index (`for i in 0..11`). -/
def u11Bits (n : Nat) : List Bool :=
  (List.range 11).map (fun i => Bip39.bit_from_u16_as_u11 n i)

/-- Embedding of `bit_vec::BitVec::to_bytes`: chunks of 8 bits, MSB first,
the last partial chunk padded with `false` in the low positions. -/
def bitsToBytes : List Bool → List Nat
  | [] => []
  | a0 :: a1 :: a2 :: a3 :: a4 :: a5 :: a6 :: a7 :: rest =>
    bitsToNat [a0, a1, a2, a3, a4, a5, a6, a7] :: bitsToBytes rest
  | l => [bitsToNat (l ++ List.replicate (8 - l.length) false)]

/-- Embedding of `bit_vec::BitVec::from_bytes`: every byte contributes its
8 bits, MSB first. -/
def bytesToBits (bs : List Nat) : List Bool := bs.flatMap (fun b => natBits 8 b)

/-- Lookup in the word→index map built in `Bip39::validate`: word `i` of the
list is inserted with value `i as u16`, in order, so for a repeated word the
`HashMap` keeps the LAST insertion.  `wordMapGetFrom wl w i` is the lookup of
`w` in the map built from `wl` whose first word has index `i`. -/
def wordMapGetFrom (wl : List (List Char)) (w : List Char) (i : Nat) : Option Nat :=
  match wl with
  | [] => none
  | x :: rest =>
    match wordMapGetFrom rest w (i + 1) with
    | some n => some n
    | none => if x = w then some (i % 65536) else none

/-- Lookup of `w` in the word map of `Bip39::validate`. -/
def wordMapGet (wl : List (List Char)) (w : List Char) : Option Nat :=
  wordMapGetFrom wl w 0

/-- Embedding of `Bip39::validate`.  The external SHA-256 (from `ring`) is
the abstract parameter `H`; the English wordlist text asset is not in the
sources, so the parsed wordlist `wl` is a parameter. -/
def Bip39.validate (H : List Nat → List Nat) (wl : List (List Char))
    (m : List Char) : Except Bip39Error Unit := do
  let key_type ← KeyType.for_mnemonic m
  let entropy_bits := key_type.entropy_bits
  let checksum_bits := key_type.checksum_bits
  let idxs ← (splitOnChar ' ' m).mapM (fun word =>
    match wordMapGet wl word with
    | some n => Except.ok n
    | none => Except.error Bip39Error.InvalidWord)
  let to_validate := idxs.flatMap u11Bits
  let checksum_to_validate := (to_validate.drop entropy_bits).take checksum_bits
  let entropy_to_validate := to_validate.take entropy_bits
  let hash := H (bitsToBytes entropy_to_validate)
  let new_checksum := (bytesToBits hash).take checksum_bits
  if new_checksum = checksum_to_validate then Except.ok ()
  else Except.error Bip39Error.InvalidChecksum

/-- Embedding of `Bip39::generate_seed`: salt is `"mnemonic" ++ password`;
the `entropy` parameter keeps its (misleading) source name — `from_mnemonic`
passes the phrase bytes here. -/
def Bip39.generate_seed (derive : Nat → List Nat → List Nat → Nat → List Nat)
    (entropy : List Nat) (password : List Char) : List Nat :=
  pbkdf2 derive entropy ("mnemonic".toList ++ password)

/-- Embedding of `Bip39::from_mnemonic`: validate, then build the struct with
the phrase kept as supplied and the seed from `generate_seed(m.as_bytes(), p)`. -/
def Bip39.from_mnemonic (derive : Nat → List Nat → List Nat → Nat → List Nat)
    (H : List Nat → List Nat) (wl : List (List Char))
    (mnemonic : List Char) (lang : Bip39.Language) (password : List Char) :
    Except Bip39Error Bip39 :=
  match Bip39.validate H wl mnemonic with
  | .error e => .error e
  | .ok _ =>
    .ok ⟨mnemonic, Bip39.generate_seed derive (utf8Encode mnemonic) password, lang⟩

/-- Embedding of the `bitreader::BitReader` loop in `from_key`: read 11 bits
`k` times (`read_u16(11)` fails — `unwrap` panics — when fewer than 11 bits
remain, modelled by `none`). -/
def readU16Groups (k : Nat) (bits : List Bool) : Option (List Nat) :=
  match k with
  | 0 => some []
  | k + 1 =>
    if 11 ≤ bits.length then
      match readU16Groups k (bits.drop 11) with
      | some ns => some (bitsToNat (bits.take 11) :: ns)
      | none => none
    else none

/-- Embedding of `Bip39::from_key`: hash the entropy, read 11-bit indices from
`entropy ++ hash`, look the words up (`word_list[n]` panics out of bounds:
`none`), join with a single space and delegate to `from_mnemonic`. -/
def Bip39.from_key (derive : Nat → List Nat → List Nat → Nat → List Nat)
    (H : List Nat → List Nat) (wl : List (List Char))
    (bytes : List Nat) (key_type : KeyType) (lang : Bip39.Language)
    (password : List Char) : Option (Except Bip39Error Bip39) :=
  let num_words := key_type.word_length
  let combined := bytes ++ H bytes
  match readU16Groups num_words (bytesToBits combined) with
  | none => none
  | some ns =>
    match ns.mapM (fun n => wl.get? n) with
    | none => none
    | some words => some (Bip39.from_mnemonic derive H wl (joinSep ' ' words) lang password)

/-- The entropy encoded by a phrase, read back exactly as `Bip39::validate`
reads it: 11-bit word indices, first `entropy_bits` bits, packed to bytes. -/
def Bip39.phrase_entropy (wl : List (List Char)) (m : List Char) : Option (List Nat) :=
  match KeyType.for_mnemonic m with
  | .error _ => none
  | .ok kt =>
    match (splitOnChar ' ' m).mapM (wordMapGet wl) with
    | none => none
    | some idxs => some (bitsToBytes ((idxs.flatMap u11Bits).take kt.entropy_bits))

/-! ### Concrete instances used to evaluate the development on sample inputs -/

/-- A sample hash oracle: maps every input to 32 zero bytes (the length is all
the theorems use of SHA-256). -/
def H0 : List Nat → List Nat := fun _ => List.replicate 32 0

/-- A sample PBKDF2 derive oracle. -/
def d0 : Nat → List Nat → List Nat → Nat → List Nat := fun _ _ _ _ => []

/-- A one-word sample wordlist. -/
def wl1 : List (List Char) := [['a']]

/-- A twelve-word phrase over `wl1`. -/
def m12 : List Char := joinSep ' ' (List.replicate 12 ['a'])

/-- A twelve-word phrase whose last word is not in `wl1`. -/
def mMiss : List Char := joinSep ' ' (List.replicate 11 ['a'] ++ [['b']])

/-- A concrete 2048-word list with pairwise-distinct, nonempty, space-free
words: word `i` spells the 11 bits of `i` with `'a'` for 0 and `'b'` for 1. -/
def wlc : List (List Char) :=
  (List.range 2048).map (fun i => (natBits 11 i).map (fun b => if b then 'b' else 'a'))

theorem wordMapGetFrom_not_mem (wl : List (List Char)) (w : List Char) (i : Nat)
    (h : w ∉ wl) : wordMapGetFrom wl w i = none := by
  induction wl generalizing i with
  | nil => rfl
  | cons x rest ih =>
    have hx : x ≠ w := fun hc => h (by simp [hc])
    have hrest : w ∉ rest := fun hc => h (by simp [hc])
    rw [wordMapGetFrom, ih (i + 1) hrest]
    simp [hx]

theorem wordMapGetFrom_mem (wl : List (List Char)) (w : List Char) (i : Nat)
    (h : w ∈ wl) : (wordMapGetFrom wl w i).isSome := by
  induction wl generalizing i with
  | nil => cases h
  | cons x rest ih =>
    rw [wordMapGetFrom]
    cases hr : wordMapGetFrom rest w (i + 1) with
    | some n => rfl
    | none =>
      rcases List.mem_cons.mp h with hxw | hmem
      · simp [hxw.symm]
      · have := ih (i + 1) hmem
        rw [hr] at this
        cases this

theorem wordMapGet_none_iff (wl : List (List Char)) (w : List Char) :
    wordMapGet wl w = none ↔ w ∉ wl := by
  constructor
  · intro h hmem
    have := wordMapGetFrom_mem wl w 0 hmem
    rw [wordMapGet] at h
    rw [h] at this
    cases this
  · intro h
    exact wordMapGetFrom_not_mem wl w 0 h

theorem wordMapGetFrom_get (wl : List (List Char)) (j i : Nat) (w : List Char)
    (hD : wl.Nodup) (hj : wl.get? j = some w) :
    wordMapGetFrom wl w i = some ((i + j) % 65536) := by
  induction wl generalizing i j with
  | nil => cases j <;> cases hj
  | cons x rest ih =>
    rw [wordMapGetFrom]
    have hD' : rest.Nodup := (List.nodup_cons.mp hD).2
    cases j with
    | zero =>
      rw [List.get?_cons_zero] at hj
      have hxw : x = w := Option.some_inj.mp hj
      have hx_not : w ∉ rest := by
        rw [← hxw]
        exact (List.nodup_cons.mp hD).1
      rw [wordMapGetFrom_not_mem rest w (i + 1) hx_not]
      simp [hxw]
    | succ j' =>
      rw [List.get?_cons_succ] at hj
      rw [ih j' (i + 1) hD' hj]
      have : i + 1 + j' = i + (j' + 1) := by omega
      rw [this]

theorem wordMapGet_get (wl : List (List Char)) (j : Nat) (w : List Char)
    (hD : wl.Nodup) (hj : wl.get? j = some w) :
    wordMapGet wl w = some (j % 65536) := by
  rw [wordMapGet, wordMapGetFrom_get wl j 0 w hD hj]
  simp

/-- `mapM` over `Option`: a pointwise description yields the mapped list. -/
theorem option_mapM_map {α β : Type} (f : α → Option β) (g : α → β)
    (ws : List α) (h : ∀ w ∈ ws, f w = some (g w)) : ws.mapM f = some (ws.map g) := by
  induction ws with
  | nil => rfl
  | cons w rest ih =>
    rw [List.mapM_cons, h w (by simp), ih (fun x hx => h x (by simp [hx]))]
    rfl

theorem option_bind_some {α β : Type} (a : α) (f : α → Option β) :
    (some a >>= f) = f a := rfl

theorem option_bind_none {α β : Type} (f : α → Option β) :
    ((none : Option α) >>= f) = none := rfl

theorem except_bind_ok {ε α β : Type} (a : α) (f : α → Except ε β) :
    (Except.ok a >>= f) = f a := rfl

theorem except_bind_error {ε α β : Type} (e : ε) (f : α → Except ε β) :
    ((Except.error e : Except ε α) >>= f) = Except.error e := rfl

/-- `mapM` over `Option` fails when some element fails. -/
theorem option_mapM_none {α β : Type} (f : α → Option β) (ws : List α)
    (w : α) (hmem : w ∈ ws) (hw : f w = none) : ws.mapM f = none := by
  induction ws with
  | nil => cases hmem
  | cons x rest ih =>
    rw [List.mapM_cons]
    rcases List.mem_cons.mp hmem with hx | hx
    · subst hx
      rw [hw, option_bind_none]
    · cases hfx : f x with
      | none => rw [option_bind_none]
      | some y =>
        rw [option_bind_some, ih hx, option_bind_none]

/-- Every element of a successful `mapM` input has a value. -/
theorem option_mapM_some_mem {α β : Type} (f : α → Option β) (ws : List α)
    (l : List β) (h : ws.mapM f = some l) : ∀ w ∈ ws, ∃ n, f w = some n := by
  intro w hmem
  cases hfw : f w with
  | some n => exact ⟨n, rfl⟩
  | none =>
    rw [option_mapM_none f ws w hmem hfw] at h
    cases h

/-- The word lookups of `Bip39::validate`, as an `Option`-level `mapM`. -/
theorem exceptLookup_mapM (wl : List (List Char)) (ws : List (List Char)) :
    (ws.mapM (fun word =>
        match wordMapGet wl word with
        | some n => Except.ok n
        | none => Except.error Bip39Error.InvalidWord)
      : Except Bip39Error (List Nat))
      = match ws.mapM (wordMapGet wl) with
        | some l => .ok l
        | none => .error .InvalidWord := by
  induction ws with
  | nil => rfl
  | cons w rest ih =>
    rw [List.mapM_cons, List.mapM_cons]
    cases hw : wordMapGet wl w with
    | none =>
      rw [show (match (none : Option Nat) with
        | some n => (Except.ok n : Except Bip39Error Nat)
        | none => Except.error Bip39Error.InvalidWord)
        = Except.error Bip39Error.InvalidWord from rfl]
      rw [except_bind_error, option_bind_none]
    | some n =>
      rw [show (match (some n : Option Nat) with
        | some n => (Except.ok n : Except Bip39Error Nat)
        | none => Except.error Bip39Error.InvalidWord) = Except.ok n from rfl]
      rw [except_bind_ok, ih, option_bind_some]
      cases hro : rest.mapM (wordMapGet wl) with
      | none =>
        rw [show (match (none : Option (List Nat)) with
          | some l => (Except.ok l : Except Bip39Error (List Nat))
          | none => Except.error Bip39Error.InvalidWord)
          = Except.error Bip39Error.InvalidWord from rfl]
        rw [except_bind_error, option_bind_none]
      | some l =>
        rw [show (match (some l : Option (List Nat)) with
          | some l => (Except.ok l : Except Bip39Error (List Nat))
          | none => Except.error Bip39Error.InvalidWord) = Except.ok l from rfl]
        rw [except_bind_ok, option_bind_some]
        rfl

/-- Unfolding of `Bip39::validate` into its three stages. -/
theorem Bip39.validate_eq (H : List Nat → List Nat) (wl : List (List Char))
    (m : List Char) :
    Bip39.validate H wl m
      = match KeyType.for_mnemonic m with
        | .error e => .error e
        | .ok kt =>
          match (splitOnChar ' ' m).mapM (wordMapGet wl) with
          | none => .error .InvalidWord
          | some idxs =>
            if (bytesToBits (H (bitsToBytes ((idxs.flatMap u11Bits).take kt.entropy_bits)))).take kt.checksum_bits
                = ((idxs.flatMap u11Bits).drop kt.entropy_bits).take kt.checksum_bits
            then .ok () else .error .InvalidChecksum := by
  unfold Bip39.validate
  cases hkt : KeyType.for_mnemonic m with
  | error e => rfl
  | ok kt =>
    rw [except_bind_ok, exceptLookup_mapM]
    cases hro : (splitOnChar ' ' m).mapM (wordMapGet wl) with
    | none =>
      rw [show (match (none : Option (List Nat)) with
        | some l => (Except.ok l : Except Bip39Error (List Nat))
        | none => Except.error Bip39Error.InvalidWord)
        = Except.error Bip39Error.InvalidWord from rfl]
      rw [except_bind_error]
    | some idxs =>
      rw [show (match (some idxs : Option (List Nat)) with
        | some l => (Except.ok l : Except Bip39Error (List Nat))
        | none => Except.error Bip39Error.InvalidWord) = Except.ok idxs from rfl]
      rw [except_bind_ok]

theorem bytesToBits_length (bs : List Nat) : (bytesToBits bs).length = 8 * bs.length := by
  induction bs with
  | nil => rfl
  | cons b rest ih =>
    simp only [bytesToBits, List.flatMap_cons, List.length_append] at *
    rw [ih, natBits_length]
    simp only [List.length_cons]
    omega

theorem bytesToBits_append (a b : List Nat) :
    bytesToBits (a ++ b) = bytesToBits a ++ bytesToBits b := by
  simp [bytesToBits]

theorem u11Bits_eq (n : Nat) : u11Bits n = natBits 11 n := by
  unfold u11Bits natBits
  apply List.map_congr_left
  intro i hi
  rw [List.mem_range] at hi
  unfold Bip39.bit_from_u16_as_u11
  rw [if_pos hi]
  have h1 : (1 : Nat) <<< (10 - i) = 2 ^ (10 - i) := by
    rw [Nat.shiftLeft_eq, Nat.one_mul]
  rw [h1, Nat.and_two_pow]
  have h2 : (n % 2 ^ 16).testBit (10 - i) = n.testBit (10 - i) := by
    rw [Nat.testBit_mod_two_pow]
    have : 10 - i < 16 := by omega
    simp [this]
  rw [h2]
  have h3 : 11 - 1 - i = 10 - i := by omega
  rw [h3]
  cases hb : n.testBit (10 - i) <;> simp

theorem readU16Groups_spec (k : Nat) : ∀ bits : List Bool, 11 * k ≤ bits.length →
    ∃ ns, readU16Groups k bits = some ns ∧ ns.length = k ∧
      (∀ n ∈ ns, n < 2 ^ 11) ∧ ns.flatMap u11Bits = bits.take (11 * k) := by
  induction k with
  | zero =>
    intro bits _
    exact ⟨[], rfl, rfl, by simp, by simp⟩
  | succ k ih =>
    intro bits hlen
    have h11 : 11 ≤ bits.length := by omega
    obtain ⟨ns, hns, hlen', hbound, hflat⟩ := ih (bits.drop 11) (by
      simp only [List.length_drop]
      omega)
    have htake_len : (bits.take 11).length = 11 := by
      rw [List.length_take]
      omega
    refine ⟨bitsToNat (bits.take 11) :: ns, ?_, by simp [hlen'], ?_, ?_⟩
    · rw [readU16Groups, if_pos h11, hns]
    · intro n hn
      rcases List.mem_cons.mp hn with h | h
      · rw [h]
        have hlt := bitsToNat_lt (bits.take 11)
        rw [htake_len] at hlt
        exact hlt
      · exact hbound n h
    · rw [List.flatMap_cons, hflat, u11Bits_eq]
      have hnb := natBits_bitsToNat (bits.take 11)
      rw [htake_len] at hnb
      rw [hnb]
      have hadd : 11 * (k + 1) = 11 + 11 * k := by omega
      rw [hadd, List.take_add]

theorem bitsToBytes_chunk (chunk l : List Bool) (h : chunk.length = 8) :
    bitsToBytes (chunk ++ l) = bitsToNat chunk :: bitsToBytes l := by
  cases chunk with
  | nil => simp at h
  | cons a0 t0 =>
  cases t0 with
  | nil => simp at h
  | cons a1 t1 =>
  cases t1 with
  | nil => simp at h
  | cons a2 t2 =>
  cases t2 with
  | nil => simp at h
  | cons a3 t3 =>
  cases t3 with
  | nil => simp at h
  | cons a4 t4 =>
  cases t4 with
  | nil => simp at h
  | cons a5 t5 =>
  cases t5 with
  | nil => simp at h
  | cons a6 t6 =>
  cases t6 with
  | nil => simp at h
  | cons a7 t7 =>
  cases t7 with
  | nil => rfl
  | cons a8 t8 =>
    simp only [List.length_cons] at h
    omega

theorem bitsToBytes_bytesToBits (bs : List Nat) (h : ∀ b ∈ bs, b < 256) :
    bitsToBytes (bytesToBits bs) = bs := by
  induction bs with
  | nil =>
    rfl
  | cons b rest ih =>
    have hb : b < 256 := h b (by simp)
    have hrest : ∀ x ∈ rest, x < 256 := fun x hx => h x (by simp [hx])
    rw [show bytesToBits (b :: rest) = natBits 8 b ++ bytesToBits rest by simp [bytesToBits]]
    rw [bitsToBytes_chunk _ _ (natBits_length 8 b), ih hrest, bitsToNat_natBits]
    rw [Nat.mod_eq_of_lt (show b < 2 ^ 8 by norm_num; omega)]

theorem mapM_get_words (wl : List (List Char)) (idxs : List Nat)
    (h : ∀ n ∈ idxs, n < wl.length) :
    idxs.mapM (fun n => wl.get? n) = some (idxs.map (fun n => wl.getD n [])) := by
  apply option_mapM_map
  intro n hn
  obtain ⟨x, hx⟩ : ∃ x, wl.get? n = some x := ⟨_, List.get?_eq_get (h n hn)⟩
  rw [hx, List.getD_eq_get?, hx]
  rfl

theorem mapM_wordMapGet_back (wl : List (List Char)) (hD : wl.Nodup)
    (hlen : wl.length ≤ 65536) (idxs : List Nat) (h : ∀ n ∈ idxs, n < wl.length) :
    (idxs.map (fun n => wl.getD n [])).mapM (wordMapGet wl) = some idxs := by
  induction idxs with
  | nil => rfl
  | cons n rest ih =>
    rw [List.map_cons, List.mapM_cons]
    have hn : n < wl.length := h n (by simp)
    have hget : wl.get? n = some (wl.getD n []) := by
      obtain ⟨x, hx⟩ : ∃ x, wl.get? n = some x := ⟨_, List.get?_eq_get hn⟩
      rw [hx, List.getD_eq_get?, hx]
      rfl
    have hmod : n % 65536 = n := Nat.mod_eq_of_lt (by omega)
    rw [wordMapGet_get wl n (wl.getD n []) hD hget, hmod, option_bind_some,
      ih (fun x hx => h x (by simp [hx])), option_bind_some]
    rfl

theorem KeyType.arith (kt : KeyType) :
    kt.entropy_bits + kt.checksum_bits = 11 * kt.word_length ∧
    1 ≤ kt.checksum_bits ∧ kt.checksum_bits ≤ 8 ∧
    12 ≤ kt.word_length ∧ kt.word_length ≤ 24 ∧
    11 * kt.word_length ≤ kt.entropy_bits + 256 ∧ kt.entropy_bits % 8 = 0 := by
  cases kt <;> decide

theorem KeyType.for_mnemonic_count (m : List Char) (kt : KeyType)
    (h : (splitOnChar ' ' m).length = kt.word_length) :
    KeyType.for_mnemonic m = .ok kt := by
  cases kt <;> (unfold KeyType.for_mnemonic; rw [h]) <;> rfl

/-- Claim C2: for every one of the five `KeyType` variants and every entropy
byte string of length `entropy_bits/8`, building a mnemonic from that entropy
(`Bip39::from_key`) succeeds, the produced phrase passes `Bip39::validate`,
and decoding the phrase's 11-bit word indices (`phrase_entropy`, reading the
bits exactly as `validate` does) recovers the original entropy bytes — the
entropy → phrase → entropy roundtrip is the identity.  The wordlist
hypotheses state the shape of the (externally stored) language wordlist: 2048
distinct nonempty words without spaces; the hash parameter `H` abstracts
SHA-256, used here only through its 32-byte output length. -/
theorem Bip39.from_key_spec (derive : Nat → List Nat → List Nat → Nat → List Nat)
    (H : List Nat → List Nat) (wl : List (List Char)) (bytes : List Nat)
    (kt : KeyType) (lang : Bip39.Language) (p : List Char)
    (hwl_len : wl.length = 2048) (hwl_nodup : wl.Nodup)
    (hwl_words : ∀ w ∈ wl, w ≠ [] ∧ ' ' ∉ w)
    (hH : ∀ bs, (H bs).length = 32)
    (hbytes_len : 8 * bytes.length = kt.entropy_bits)
    (hbytes : ∀ b ∈ bytes, b < 256) :
    ∃ b : Bip39,
      Bip39.from_key derive H wl bytes kt lang p = some (.ok b) ∧
      Bip39.validate H wl b.mnemonic = .ok () ∧
      Bip39.phrase_entropy wl b.mnemonic = some bytes := by
  obtain ⟨harith, hcb1, hcb8, hnw12, hnw24, hcap, hmod8⟩ := KeyType.arith kt
  have hcomb_len : (bytesToBits (bytes ++ H bytes)).length
      = kt.entropy_bits + 256 := by
    rw [bytesToBits_length]
    simp only [List.length_append, hH bytes]
    omega
  obtain ⟨idxs, hread, hidxs_len, hidxs_lt, hflat⟩ :=
    readU16Groups_spec kt.word_length (bytesToBits (bytes ++ H bytes))
      (by omega)
  have hidx_lt_wl : ∀ n ∈ idxs, n < wl.length := by
    intro n hn
    rw [hwl_len]
    exact hidxs_lt n hn
  have hwords : idxs.mapM (fun n => wl.get? n)
      = some (idxs.map (fun n => wl.getD n [])) := mapM_get_words wl idxs hidx_lt_wl
  -- the produced phrase
  have hwords_mem : ∀ w ∈ idxs.map (fun n => wl.getD n []), w ∈ wl := by
    intro w hw
    rw [List.mem_map] at hw
    obtain ⟨n, hn, hgd⟩ := hw
    obtain ⟨x, hx⟩ : ∃ x, wl.get? n = some x := ⟨_, List.get?_eq_get (hidx_lt_wl n hn)⟩
    have : wl.getD n [] = x := by
      rw [List.getD_eq_get?, hx]
      rfl
    rw [← hgd, this]
    exact List.get?_mem hx
  have hwords_clean : ∀ w ∈ idxs.map (fun n => wl.getD n []), w ≠ [] ∧ ' ' ∉ w :=
    fun w hw => hwl_words w (hwords_mem w hw)
  have hwords_len : (idxs.map (fun n => wl.getD n [])).length = kt.word_length := by
    rw [List.length_map, hidxs_len]
  have hwords_ne : idxs.map (fun n => wl.getD n []) ≠ [] := by
    intro hc
    have := congrArg List.length hc
    rw [hwords_len] at this
    simp at this
    omega
  have hsplit : splitOnChar ' ' (joinSep ' ' (idxs.map (fun n => wl.getD n [])))
      = idxs.map (fun n => wl.getD n []) :=
    splitOnChar_joinSep ' ' _ hwords_ne (fun w hw => (hwords_clean w hw).2)
  have hcount : (splitOnChar ' ' (joinSep ' ' (idxs.map (fun n => wl.getD n [])))).length
      = kt.word_length := by
    rw [hsplit, hwords_len]
  have hkt : KeyType.for_mnemonic (joinSep ' ' (idxs.map (fun n => wl.getD n [])))
      = .ok kt := KeyType.for_mnemonic_count _ kt hcount
  have hmapback : (idxs.map (fun n => wl.getD n [])).mapM (wordMapGet wl)
      = some idxs :=
    mapM_wordMapGet_back wl hwl_nodup (by omega) idxs hidx_lt_wl
  -- the entropy part of the recovered bit stream
  have hbb_len : (bytesToBits bytes).length = kt.entropy_bits := by
    rw [bytesToBits_length, hbytes_len]
  have htake_entropy : (idxs.flatMap u11Bits).take kt.entropy_bits
      = bytesToBits bytes := by
    rw [hflat]
    rw [List.take_take, min_eq_left (by omega)]
    rw [bytesToBits_append, ← hbb_len, List.take_left]
  have hentropy_bytes : bitsToBytes ((idxs.flatMap u11Bits).take kt.entropy_bits)
      = bytes := by
    rw [htake_entropy]
    exact bitsToBytes_bytesToBits bytes hbytes
  -- the checksum comparison of `validate` succeeds
  have hdrop_checksum : ((idxs.flatMap u11Bits).drop kt.entropy_bits).take kt.checksum_bits
      = (bytesToBits (H bytes)).take kt.checksum_bits := by
    rw [hflat, List.drop_take]
    rw [bytesToBits_append, ← hbb_len, List.drop_left]
    rw [List.take_take, hbb_len]
    congr 1
    omega
  have hvalidate : Bip39.validate H wl (joinSep ' ' (idxs.map (fun n => wl.getD n [])))
      = .ok () := by
    rw [Bip39.validate_eq, hkt]
    simp only
    rw [hsplit, hmapback]
    simp only
    rw [hentropy_bytes, hdrop_checksum]
    simp
  refine ⟨⟨joinSep ' ' (idxs.map (fun n => wl.getD n [])),
    Bip39.generate_seed derive
      (utf8Encode (joinSep ' ' (idxs.map (fun n => wl.getD n [])))) p, lang⟩, ?_, ?_, ?_⟩
  · simp only [Bip39.from_key]
    rw [hread]
    simp only
    rw [hwords]
    simp only
    simp only [Bip39.from_mnemonic]
    rw [hvalidate]
  · exact hvalidate
  · simp only [Bip39.phrase_entropy]
    rw [hkt]
    simp only
    rw [hsplit, hmapback]
    simp only
    rw [hentropy_bytes]

/-- `from_mnemonic` on a valid phrase: the struct keeps the phrase verbatim and
the seed is PBKDF2 with the phrase bytes as secret. -/
theorem Bip39.from_mnemonic_spec (derive : Nat → List Nat → List Nat → Nat → List Nat)
    (H : List Nat → List Nat) (wl : List (List Char)) (m : List Char)
    (lang : Bip39.Language) (p : List Char)
    (h : Bip39.validate H wl m = .ok ()) :
    Bip39.from_mnemonic derive H wl m lang p
      = .ok ⟨m, derive PBKDF2_ROUNDS (utf8Encode ("mnemonic".toList ++ p))
          (utf8Encode m) PBKDF2_BYTES, lang⟩ := by
  unfold Bip39.from_mnemonic
  rw [h]
  rfl

/-- `for_mnemonic` only fails with the word-count error. -/
theorem KeyType.for_mnemonic_error (m : List Char) (e : Bip39Error)
    (h : KeyType.for_mnemonic m = .error e) : e = .InvalidWordLength := by
  unfold KeyType.for_mnemonic at h
  split at h <;> cases h <;> rfl

/-- A phrase with a leading space, a trailing space or a doubled space never
validates: it fails with the word-count error or the unknown-word error. -/
theorem Bip39.validate_deviant (H : List Nat → List Nat) (wl : List (List Char))
    (m : List Char) (hwl : ∀ w ∈ wl, w ≠ [])
    (hdev : m.head? = some ' ' ∨ m.getLast? = some ' ' ∨ hasDoubleSep ' ' m = true) :
    Bip39.validate H wl m = .error .InvalidWordLength ∨
      Bip39.validate H wl m = .error .InvalidWord := by
  rw [Bip39.validate_eq]
  cases hkt : KeyType.for_mnemonic m with
  | error e =>
    rw [KeyType.for_mnemonic_error m e hkt]
    exact Or.inl rfl
  | ok kt =>
    simp only
    cases hro : (splitOnChar ' ' m).mapM (wordMapGet wl) with
    | none => exact Or.inr rfl
    | some idxs =>
      exfalso
      have hmem : ∀ w ∈ splitOnChar ' ' m, w ∈ wl := by
        intro w hw
        obtain ⟨n, hn⟩ := option_mapM_some_mem _ _ _ hro w hw
        by_contra hc
        rw [(wordMapGet_none_iff wl w).mpr hc] at hn
        cases hn
      have hclean : ∀ w ∈ splitOnChar ' ' m, w ≠ [] ∧ ' ' ∉ w := by
        intro w hw
        exact ⟨hwl w (hmem w hw), splitOnChar_mem_not_sep ' ' m w hw⟩
      obtain ⟨hh, hl, hd⟩ := joinSep_clean ' ' (splitOnChar ' ' m) hclean
      rw [joinSep_splitOnChar] at hh hl hd
      rcases hdev with h | h | h
      · exact hh h
      · exact hl h
      · rw [hd] at h
        cases h

/-- `for_mnemonic` rejects every token count outside the five legal ones with
the word-count error. -/
theorem KeyType.for_mnemonic_bad (m : List Char)
    (h : (splitOnChar ' ' m).length ∉ ([12, 15, 18, 21, 24] : List Nat)) :
    KeyType.for_mnemonic m = .error .InvalidWordLength := by
  unfold KeyType.for_mnemonic
  split
  all_goals first
  | rfl
  | (rename_i heq; exact absurd (by rw [heq]; decide) h)

/-- After the iterator has been driven to exhaustion, `next` answers `none`. -/
theorem BitIterSt.runAll_next_none (n : Nat) : ∀ s : BitIterSt, s.bitsLeft = n →
    s.Inv → (BitIterSt.next (BitIterSt.runAll s)).1 = none := by
  induction n using Nat.strong_induction_on with
  | _ n ih =>
    intro s hn hinv
    by_cases h11 : 11 ≤ n
    · obtain ⟨v, s', hnext, _, _, _, hbits', hinv'⟩ :=
        BitIterSt.next_spec s hinv (by omega)
      rw [BitIterSt.runAll]
      split
      · rename_i v2 s2 h2
        rw [hnext] at h2
        cases h2
        exact ih (n - 11) (by omega) s' (by omega) hinv'
      · rename_i h2
        rw [hnext] at h2
        cases h2
    · have hnone := BitIterSt.next_none s (by omega)
      rw [BitIterSt.runAll]
      split
      · rename_i v2 s2 h2
        rw [h2] at hnone
        cases hnone
      · rename_i s2 h2
        have hst := BitIterSt.next_none_stable s hnone
        rw [h2] at hst
        simp only at hst
        rw [hst]

theorem wlc_length : wlc.length = 2048 := by simp [wlc]

theorem wlc_words : ∀ w ∈ wlc, w ≠ [] ∧ ' ' ∉ w := by
  intro w hw
  simp only [wlc, List.mem_map] at hw
  obtain ⟨i, hi, hweq⟩ := hw
  constructor
  · intro hc
    rw [← hweq] at hc
    have := congrArg List.length hc
    simp [natBits_length] at this
  · intro hc
    rw [← hweq, List.mem_map] at hc
    obtain ⟨b, hb, hcb⟩ := hc
    cases b <;> exact absurd hcb (by decide)

theorem wlc_nodup : wlc.Nodup := by
  unfold wlc
  apply List.Nodup.map_on ?_ (List.nodup_range 2048)
  intro i hi j hj hmap
  rw [List.mem_range] at hi hj
  have hinj : Function.Injective (fun b : Bool => if b then 'b' else 'a') := by
    intro a b hab
    cases a <;> cases b <;> first | rfl | exact absurd hab (by decide)
  have hb : natBits 11 i = natBits 11 j := List.map_injective_iff.mpr hinj hmap
  have hv := congrArg bitsToNat hb
  rw [bitsToNat_natBits, bitsToNat_natBits,
    Nat.mod_eq_of_lt (show i < 2 ^ 11 by omega),
    Nat.mod_eq_of_lt (show j < 2 ^ 11 by omega)] at hv
  exact hv

theorem H0_length : ∀ bs, (H0 bs).length = 32 := fun _ => by simp [H0]

/-! ### The claims -/

/-- Claim C1: for every phrase accepted by validation and every passphrase
`p`, the derived seed equals PBKDF2-HMAC-SHA512 (the abstract `derive`
oracle, standing for `ring::pbkdf2::derive` with PRF HMAC-SHA-512) applied
with password = the phrase's UTF-8 bytes (not the decoded entropy bytes),
salt = the UTF-8 bytes of `"mnemonic"` concatenated with `p`, iteration
count `2048`, and output length exactly `64` bytes. -/
theorem C1_seed_pbkdf2 (derive : Nat → List Nat → List Nat → Nat → List Nat)
    (H : List Nat → List Nat) (wl : List (List Char)) (m : List Char)
    (lang : Bip39.Language) (p : List Char)
    (h : Bip39.validate H wl m = .ok ()) :
    ∃ b : Bip39, Bip39.from_mnemonic derive H wl m lang p = .ok b ∧
      b.mnemonic = m ∧
      b.seed = derive 2048 (utf8Encode ("mnemonic".toList ++ p)) (utf8Encode m) 64 :=
  ⟨_, Bip39.from_mnemonic_spec derive H wl m lang p h, rfl, rfl⟩

theorem C1_seed_pbkdf2_witness :
    ∃ b : Bip39, Bip39.from_mnemonic d0 H0 wl1 m12 .English [] = .ok b ∧
      b.mnemonic = m12 ∧
      b.seed = d0 2048 (utf8Encode ("mnemonic".toList ++ [])) (utf8Encode m12) 64 :=
  C1_seed_pbkdf2 d0 H0 wl1 m12 .English [] (by rfl)

theorem from_key_spec_witness :
    ∃ b : Bip39,
      Bip39.from_key d0 H0 wlc (List.replicate 16 0) KeyType.Key128 .English []
        = some (.ok b) ∧
      Bip39.validate H0 wlc b.mnemonic = .ok () ∧
      Bip39.phrase_entropy wlc b.mnemonic = some (List.replicate 16 0) :=
  Bip39.from_key_spec d0 H0 wlc (List.replicate 16 0) KeyType.Key128 .English []
    wlc_length wlc_nodup wlc_words H0_length (by decide) (by decide)

/-- Claim C3: validation of a phrase succeeds iff the space-split token count
is one of {12, 15, 18, 21, 24} (otherwise the word-count error), every token
is in the wordlist (otherwise `InvalidWord`), and the trailing
`checksum_bits` bits of the concatenated 11-bit indices equal the first
`checksum_bits` bits of the hash (SHA-256, abstracted by `H`) of the first
`entropy_bits` bits (otherwise `InvalidChecksum`); the checks apply in that
order (the earlier conjuncts hold whatever the wordlist resp. hash say), and
on success the phrase is kept byte-identical in the constructed struct. -/
theorem C3_validate_characterization (H : List Nat → List Nat)
    (wl : List (List Char)) (m : List Char) :
    ((splitOnChar ' ' m).length ∉ ([12, 15, 18, 21, 24] : List Nat) →
      Bip39.validate H wl m = .error .InvalidWordLength) ∧
    (∀ kt, KeyType.for_mnemonic m = .ok kt →
      (∃ w ∈ splitOnChar ' ' m, w ∉ wl) →
      Bip39.validate H wl m = .error .InvalidWord) ∧
    (∀ kt idxs, KeyType.for_mnemonic m = .ok kt →
      (splitOnChar ' ' m).mapM (wordMapGet wl) = some idxs →
      ((Bip39.validate H wl m = .ok () ↔
        (bytesToBits (H (bitsToBytes ((idxs.flatMap u11Bits).take
            kt.entropy_bits)))).take kt.checksum_bits
          = ((idxs.flatMap u11Bits).drop kt.entropy_bits).take kt.checksum_bits) ∧
       (Bip39.validate H wl m ≠ .ok () →
        Bip39.validate H wl m = .error .InvalidChecksum))) ∧
    (∀ derive lang p, Bip39.validate H wl m = .ok () →
      ∃ s, Bip39.from_mnemonic derive H wl m lang p = .ok ⟨m, s, lang⟩) := by
  refine ⟨?_, ?_, ?_, ?_⟩
  · intro h
    rw [Bip39.validate_eq, KeyType.for_mnemonic_bad m h]
  · intro kt hkt hmiss
    obtain ⟨w, hwmem, hwnot⟩ := hmiss
    have hnone : wordMapGet wl w = none := (wordMapGet_none_iff wl w).mpr hwnot
    have hmapM : (splitOnChar ' ' m).mapM (wordMapGet wl) = none :=
      option_mapM_none (wordMapGet wl) _ w hwmem hnone
    rw [Bip39.validate_eq, hkt]
    simp only
    rw [hmapM]
  · intro kt idxs hkt hmapM
    rw [Bip39.validate_eq, hkt]
    simp only
    rw [hmapM]
    simp only
    by_cases hc : (bytesToBits (H (bitsToBytes ((idxs.flatMap u11Bits).take
          kt.entropy_bits)))).take kt.checksum_bits
        = ((idxs.flatMap u11Bits).drop kt.entropy_bits).take kt.checksum_bits
    · rw [if_pos hc]
      exact ⟨⟨fun _ => hc, fun _ => rfl⟩, fun hne => absurd rfl hne⟩
    · rw [if_neg hc]
      refine ⟨⟨fun h => ?_, fun h => absurd h hc⟩, fun _ => rfl⟩
      cases h
  · intro derive lang p hok
    exact ⟨_, Bip39.from_mnemonic_spec derive H wl m lang p hok⟩

theorem C3_validate_characterization_witness :
    Bip39.validate H0 wl1 ['a'] = .error .InvalidWordLength ∧
    Bip39.validate H0 wl1 mMiss = .error .InvalidWord ∧
    Bip39.validate H0 wl1 m12 = .ok () ∧
    (∃ s, Bip39.from_mnemonic d0 H0 wl1 m12 .English [] = .ok ⟨m12, s, .English⟩) := by
  have h12 : Bip39.validate H0 wl1 m12 = .ok () :=
    ((C3_validate_characterization H0 wl1 m12).2.2.1 KeyType.Key128
      (List.replicate 12 0) (by rfl) (by decide)).1.mpr (by decide)
  refine ⟨?_, ?_, h12, ?_⟩
  · exact (C3_validate_characterization H0 wl1 ['a']).1 (by decide)
  · exact (C3_validate_characterization H0 wl1 mMiss).2.1 KeyType.Key128 (by rfl)
      ⟨['b'], by decide, by decide⟩
  · exact (C3_validate_characterization H0 wl1 m12).2.2.2 d0 .English [] h12

theorem writer_reader_roundtrip_witness :
    (∀ v ∈ ([5, 1000, 2047] : List Nat), v < 2048) ∧
    readBytes11 (BitWriter.pushAll [5, 1000, 2047]).into_bytes = [5, 1000, 2047] :=
  ⟨by decide, writer_reader_roundtrip [5, 1000, 2047] (by decide)⟩

/-- Claim C5, corrected: when the accumulated bit count `11·n` is not a
multiple of 8, `into_bytes()` returns `ceil(11·n/8)` bytes, and the final
byte carries the pending data bits in its MOST significant positions — the
zero padding occupies the LEAST significant `8 - (11·n mod 8)` bits (the
final byte is divisible by `2^(8 - 11·n mod 8)`), not the most significant
ones as the claim states. -/
theorem C5_into_bytes_padding (vs : List Nat) (h : (11 * vs.length) % 8 ≠ 0) :
    (BitWriter.pushAll vs).into_bytes.length = (11 * vs.length + 7) / 8 ∧
    ∃ last, (BitWriter.pushAll vs).into_bytes.getLast? = some last ∧
      last % 2 ^ (8 - (11 * vs.length) % 8) = 0 := by
  obtain ⟨hinv, hval, hbits⟩ := BitWriter.pushAll_spec vs
  obtain ⟨hbe, hlen, hbytes, hoff⟩ := BitWriter.into_bytes_spec _ hinv
  have hofflt : (BitWriter.pushAll vs).offset < 8 := hinv.1
  have hbitsdef : (BitWriter.pushAll vs).bits
      = 8 * (BitWriter.pushAll vs).inner.length + (BitWriter.pushAll vs).offset := rfl
  have hoffeq : (BitWriter.pushAll vs).offset = (11 * vs.length) % 8 := by
    rw [← hbits]
    omega
  obtain ⟨heq, hmod⟩ := hoff (by omega)
  refine ⟨by rw [hlen, hbits], (BitWriter.pushAll vs).remainder >>> 24, ?_, ?_⟩
  · rw [heq]
    exact List.getLast?_concat _
  · rw [← hoffeq]
    exact hmod

/-- Counterexample to claim C5 as stated: pushing the single value 1 pushes
11 bits, so the final byte holds 3 data bits; the produced bytes are
`[0, 32]` with `32 = 0b00100000` — the data bits `001` sit in the MOST
significant positions and the five zero-padding bits in the LEAST significant
positions.  Were the zero padding in the most significant unused positions,
the final byte would be below `2^3`. -/
theorem C5_counterexample :
    (BitWriter.pushAll [1]).into_bytes = [0, 32] ∧
    (BitWriter.pushAll [1]).into_bytes.getLast? = some 32 ∧
    ¬(32 < 2 ^ ((11 * ([1] : List Nat).length) % 8)) := by
  have h1 : (BitWriter.pushAll [1]).into_bytes = [0, 32] := by
    simp [BitWriter.pushAll, BitWriter.init, BitWriter.push, BitWriter.pushLoop,
      BitWriter.into_bytes, Bits11.BITS]
  exact ⟨h1, by rw [h1]; rfl, by decide⟩

theorem C5_into_bytes_padding_witness :
    (11 * ([3] : List Nat).length) % 8 ≠ 0 ∧
    ((BitWriter.pushAll [3]).into_bytes.length = (11 * ([3] : List Nat).length + 7) / 8 ∧
      ∃ last, (BitWriter.pushAll [3]).into_bytes.getLast? = some last ∧
        last % 2 ^ (8 - (11 * ([3] : List Nat).length) % 8) = 0) :=
  ⟨by decide, C5_into_bytes_padding [3] (by decide)⟩

/-- Claim C6: for every byte sequence of length `L` the 11-bit `BitIter`
yields exactly `⌊8L/11⌋` values, each strictly below 2048, so indexing a
2048-entry wordlist with a yielded value (`WordList::get_word`) is always in
bounds; once the iterator is exhausted, `next` keeps returning `none` (and,
being a total function of the state, it never panics). -/
theorem C6_bit_iter_safety (bs : List Nat) (hbs : ∀ b ∈ bs, b < 256)
    (wl : WordList) (hwl : wl.inner.length = 2048) :
    (readBytes11 bs).length = 8 * bs.length / 11 ∧
    (∀ v ∈ readBytes11 bs, v < 2048) ∧
    (∀ v ∈ readBytes11 bs, (wl.get_word v).isSome) ∧
    (BitIterSt.next (BitIterSt.runAll ⟨bs, 0, 0⟩)).1 = none ∧
    (∀ s : BitIterSt, (BitIterSt.next s).1 = none →
      BitIterSt.next (BitIterSt.next s).2 = (none, (BitIterSt.next s).2)) := by
  have hinv : BitIterSt.Inv ⟨bs, 0, 0⟩ := ⟨by norm_num, by positivity, by simp, hbs⟩
  have hbl : BitIterSt.bitsLeft ⟨bs, 0, 0⟩ = 8 * bs.length := by
    simp [BitIterSt.bitsLeft]
  have hlt : ∀ v ∈ readBytes11 bs, v < 2048 := by
    intro v hv
    have h := BitIterSt.readAll_mem_lt (8 * bs.length) ⟨bs, 0, 0⟩ hbl hinv v hv
    calc v < 2 ^ 11 := h
      _ = 2048 := by norm_num
  refine ⟨readBytes11_length bs hbs, hlt, ?_,
    BitIterSt.runAll_next_none (8 * bs.length) ⟨bs, 0, 0⟩ hbl hinv,
    fun s h => BitIterSt.next_none_stable s h⟩
  intro v hv
  rw [WordList.get_word]
  have hvlt : v < wl.inner.length := by
    rw [hwl]
    exact hlt v hv
  rw [List.get?_eq_get hvlt]
  rfl

set_option maxRecDepth 4000 in
theorem C6_bit_iter_safety_witness :
    (∀ b ∈ ([255, 0] : List Nat), b < 256) ∧
    ((readBytes11 [255, 0]).length = 8 * ([255, 0] : List Nat).length / 11 ∧
      (∀ v ∈ readBytes11 [255, 0], v < 2048) ∧
      (∀ v ∈ readBytes11 [255, 0], ((WordList.mk wlc).get_word v).isSome) ∧
      (BitIterSt.next (BitIterSt.runAll ⟨[255, 0], 0, 0⟩)).1 = none ∧
      (∀ s : BitIterSt, (BitIterSt.next s).1 = none →
        BitIterSt.next (BitIterSt.next s).2 = (none, (BitIterSt.next s).2))) :=
  ⟨by decide, C6_bit_iter_safety [255, 0] (by decide) (WordList.mk wlc) wlc_length⟩

/-- Claim C7: for each of the five variants of both enums the derived
constants satisfy `total_bits = entropy_bits + checksum_bits`,
`total_bits = 11 * word count` and `checksum_bits = entropy_bits / 32`, with
the concrete tuples (entropy, checksum, total, words) = (128,4,132,12),
(160,5,165,15), (192,6,198,18), (224,7,231,21), (256,8,264,24). -/
theorem C7_constant_tables :
    (∀ t : MnemonicType,
      t.total_bits = t.entropy_bits + t.checksum_bits ∧
      t.total_bits = 11 * t.word_count ∧
      t.checksum_bits = t.entropy_bits / 32) ∧
    (∀ k : KeyType,
      k.total_bits = k.entropy_bits + k.checksum_bits ∧
      k.total_bits = 11 * k.word_length ∧
      k.checksum_bits = k.entropy_bits / 32) ∧
    ([MnemonicType.Type12Words, MnemonicType.Type15Words, MnemonicType.Type18Words,
        MnemonicType.Type21Words, MnemonicType.Type24Words].map
      (fun t => (t.entropy_bits, t.checksum_bits, t.total_bits, t.word_count))
      = [(128, 4, 132, 12), (160, 5, 165, 15), (192, 6, 198, 18),
         (224, 7, 231, 21), (256, 8, 264, 24)]) ∧
    ([KeyType.Key128, KeyType.Key160, KeyType.Key192, KeyType.Key224,
        KeyType.Key256].map
      (fun k => (k.entropy_bits, k.checksum_bits, k.total_bits, k.word_length))
      = [(128, 4, 132, 12), (160, 5, 165, 15), (192, 6, 198, 18),
         (224, 7, 231, 21), (256, 8, 264, 24)]) := by
  refine ⟨fun t => ?_, fun k => ?_, by decide, by decide⟩
  · cases t <;> exact ⟨rfl, rfl, rfl⟩
  · cases k <;> exact ⟨rfl, rfl, rfl⟩

/-- Claim C8: phrase validation enforces strict single-ASCII-space
separation — the empty phrase fails with the word-count error, and a phrase
with a leading, trailing or doubled space never validates: it fails with the
word-count error or the unknown-word error.  The hypothesis on `wl` states
that the language's wordlist has no empty word (true of the externally stored
BIP-39 wordlists). -/
theorem C8_strict_space_separation (H : List Nat → List Nat)
    (wl : List (List Char)) (hwl : ∀ w ∈ wl, w ≠ []) (m : List Char)
    (hdev : m.head? = some ' ' ∨ m.getLast? = some ' ' ∨ hasDoubleSep ' ' m = true) :
    Bip39.validate H wl [] = .error .InvalidWordLength ∧
    (Bip39.validate H wl m = .error .InvalidWordLength ∨
      Bip39.validate H wl m = .error .InvalidWord) :=
  ⟨rfl, Bip39.validate_deviant H wl m hwl hdev⟩

theorem C8_strict_space_separation_witness :
    (∀ w ∈ wl1, w ≠ []) ∧
    (Bip39.validate H0 wl1 [] = .error .InvalidWordLength ∧
      (Bip39.validate H0 wl1 [' ', 'a'] = .error .InvalidWordLength ∨
        Bip39.validate H0 wl1 [' ', 'a'] = .error .InvalidWord)) :=
  ⟨by decide,
    C8_strict_space_separation H0 wl1 (by decide) [' ', 'a'] (Or.inl (by decide))⟩

/-- Claim C9, corrected: the `Display` rendering of a `MnemonicType` is
`"{n} words ({bits}bits)"` — the format string of `mnemonic_type.rs` has NO
space between the bit count and `"bits"`, unlike the
`"{n} words ({bits} bits)"` the claim states. -/
theorem C9_display_rendering :
    MnemonicType.Type12Words.display = "12 words (128bits)" ∧
    MnemonicType.Type15Words.display = "15 words (160bits)" ∧
    MnemonicType.Type18Words.display = "18 words (192bits)" ∧
    MnemonicType.Type21Words.display = "21 words (224bits)" ∧
    MnemonicType.Type24Words.display = "24 words (256bits)" := by decide

/-- Counterexample to claim C9 as stated: the 12-word variant does not render
with a space before `"bits"`. -/
theorem C9_counterexample :
    MnemonicType.Type12Words.display ≠ "12 words (128 bits)" := by decide

/-- Claim C10 (implicit): for `1 ≤ bits ≤ 8`, `util::checksum` is total and
returns `source >> (8 - bits)`, the high `bits` bits of the byte, a value
strictly below `2^bits`; at `bits = 0` the shift amount reaches 8, an
undefined `u8` shift (modelled by `none`); the function is only safe because
every checksum width a `MnemonicType` supplies lies in `{4,...,8}`. -/
theorem C10_checksum_safety (source bits : Nat) (h1 : 1 ≤ bits) (h8 : bits ≤ 8) :
    Util.checksum source bits = some ((source % 256) >>> (8 - bits)) ∧
    (source % 256) >>> (8 - bits) < 2 ^ bits ∧
    Util.checksum source 0 = none ∧
    (∀ t : MnemonicType, 4 ≤ t.checksum_bits ∧ t.checksum_bits ≤ 8) := by
  refine ⟨?_, ?_, rfl, fun t => by cases t <;> exact ⟨by decide, by decide⟩⟩
  · unfold Util.checksum
    rw [if_pos h8, if_pos (by omega)]
  · rw [Nat.shiftRight_eq_div_pow]
    apply Nat.div_lt_of_lt_mul
    calc source % 256 < 256 := Nat.mod_lt _ (by norm_num)
      _ ≤ 2 ^ (8 - bits) * 2 ^ bits := by
          rw [← pow_add]
          have he : 8 - bits + bits = 8 := by omega
          rw [he]
          norm_num

theorem C10_checksum_safety_witness :
    (1 ≤ 3 ∧ 3 ≤ 8) ∧
    (Util.checksum 176 3 = some ((176 % 256) >>> (8 - 3)) ∧
      (176 % 256) >>> (8 - 3) < 2 ^ 3 ∧
      Util.checksum 176 0 = none ∧
      (∀ t : MnemonicType, 4 ≤ t.checksum_bits ∧ t.checksum_bits ≤ 8)) :=
  ⟨⟨by decide, by decide⟩, C10_checksum_safety 176 3 (by decide) (by decide)⟩
